import Mathlib

/-!
# FMNarrative OCR reader (`src/ocr.cpp`): text-to-statistics extraction

A shallow embedding of the text processing of `OCRReader`:
`splitLines`, `extractTeamNames`, `cleanNumericValue` and `parseStatistics`.

A `std::string` is modelled as the list of its `char` values (`Str`), each
`char` as the natural number of its byte.  The process runs in the default "C"
locale, so `::toupper`, `::tolower` and the `std::regex` character classes
`\d`, `\s`, `\b`, `[A-Z]` act on the ASCII ranges only.  Regular expressions
are embedded as matching functions that follow the ECMAScript rules used by
`std::regex`: the leftmost start position wins, quantifiers are greedy and
give characters back one at a time, alternatives are tried left to right.
-/

namespace OCRReader

/-! ## Strings -/

/-- A `std::string`: the sequence of its bytes. -/
abbrev Str := List Nat

/-- The bytes of a string literal of the source. -/
def str (s : String) : Str := s.toList.map Char.toNat

/-- The record `struct MatchStatistic`. -/
structure MatchStatistic where
  statName : Str
  homeValue : Str
  awayValue : Str
  homeTeam : Str
  awayTeam : Str
deriving DecidableEq, Repr

/-! ## Character classes of the "C" locale -/

/-- The class `\d`: the decimal digits `0`-`9`. -/
def isDigit (c : Nat) : Bool := decide (Char.toNat '0' ≤ c) && decide (c ≤ Char.toNat '9')

/-- The class `[A-Z]`. -/
def isUpper (c : Nat) : Bool := decide (Char.toNat 'A' ≤ c) && decide (c ≤ Char.toNat 'Z')

/-- The class `[a-z]`. -/
def isLower (c : Nat) : Bool := decide (Char.toNat 'a' ≤ c) && decide (c ≤ Char.toNat 'z')

/-- The class `\s`: space and the range `\t`, `\n`, `\v`, `\f`, `\r` (bytes 9 to 13). -/
def isSpace (c : Nat) : Bool :=
  c == Char.toNat ' ' || (decide (Char.toNat '\t' ≤ c) && decide (c ≤ Char.toNat '\r'))

/-- A word character for `\b`: a letter, a digit or `_`. -/
def isWordChar (c : Nat) : Bool :=
  isUpper c || isLower c || isDigit c || c == Char.toNat '_'

/-- The function `::toupper`: a letter `a`-`z` becomes its capital. -/
def toupper (c : Nat) : Nat :=
  if isLower c then c - Char.toNat 'a' + Char.toNat 'A' else c

/-- The function `::tolower`: a letter `A`-`Z` becomes its small letter. -/
def tolower (c : Nat) : Nat :=
  if isUpper c then c - Char.toNat 'A' + Char.toNat 'a' else c

/-! ## `cleanNumericValue` -/

/-- The call `std::regex_replace(cleaned, std::regex("[oO]"), "0")`: every
match is one character, which is replaced by `0`. -/
def replaceOh (s : Str) : Str :=
  s.map fun c => if c = Char.toNat 'o' ∨ c = Char.toNat 'O' then Char.toNat '0' else c

/-- The call `std::regex_replace(cleaned, std::regex("[lI]"), "1")`. -/
def replaceEll (s : Str) : Str :=
  s.map fun c => if c = Char.toNat 'l' ∨ c = Char.toNat 'I' then Char.toNat '1' else c

/-- The method `OCRReader::cleanNumericValue`. -/
def cleanNumericValue (value : Str) : Str :=
  let cleaned := value
  let cleaned := replaceOh cleaned
  let cleaned := replaceEll cleaned
  cleaned

/-! ## Regular-expression scanning -/

/-- Length of the longest prefix of `s` whose characters all satisfy `p`: how
far a greedy `p+` or `p*` runs. -/
def runLength (p : Nat → Bool) : Str → Nat
  | [] => 0
  | c :: cs => if p c then runLength p cs + 1 else 0

/-- The repetition counts a greedy quantifier tries, in order: the largest
first, giving one character back at a time down to `lo`. -/
def greedyCounts (lo hi : Nat) : List Nat :=
  ((List.range (hi + 1)).filter fun k => decide (lo ≤ k)).reverse

/-- The iteration of a `std::sregex_iterator` over a pattern that never
matches the empty string.  `matchAt prev rest` is the attempt to match at the
position before `rest` (`prev` is the character just before it, if any) and
gives the value of the match and its length.  The scan tries each position
from the left; after a match it goes on behind the match (`skip` counts the
characters of the last match that are still to be passed over). -/
def regexIterate {α : Type} (matchAt : Option Nat → Str → Option (α × Nat)) :
    Nat → Option Nat → Str → List α
  | _, _, [] => []
  | skip + 1, _, c :: cs => regexIterate matchAt skip (some c) cs
  | 0, prev, c :: cs =>
    match matchAt prev (c :: cs) with
    | some (v, len) => v :: regexIterate matchAt (len - 1) (some c) cs
    | none => regexIterate matchAt 0 (some c) cs

/-- The call `std::regex_replace(s, re, "")` for a pattern that never matches
the empty string: the characters of every match are removed, the others are
copied. -/
def regexRemove (matchAt : Option Nat → Str → Option Nat) :
    Nat → Option Nat → Str → Str
  | _, _, [] => []
  | skip + 1, _, c :: cs => regexRemove matchAt skip (some c) cs
  | 0, prev, c :: cs =>
    match matchAt prev (c :: cs) with
    | some len => regexRemove matchAt (len - 1) (some c) cs
    | none => c :: regexRemove matchAt 0 (some c) cs

/-- The pattern `(\d+)%` tried at one position: `\d+` takes the whole run of
digits and gives digits back until a `%` follows.  The value is group 1. -/
def percentPatternAt (_prev : Option Nat) (rest : Str) : Option (Str × Nat) :=
  (greedyCounts 1 (runLength isDigit rest)).findSome? fun k =>
    if (rest.drop k).head? = some (Char.toNat '%') then some (rest.take k, k + 1) else none

/-- The pattern `(\d+(?:\.\d+)?)` tried at one position: the run of digits,
then, when a `.` and at least one digit follow, the `.` and its run of digits.
Nothing follows the group, so the greedy choice is never taken back. -/
def numberPatternAt (_prev : Option Nat) (rest : Str) : Option (Str × Nat) :=
  let k := runLength isDigit rest
  if k = 0 then none
  else
    let frac := rest.drop k
    let k2 := runLength isDigit frac.tail
    if frac.head? = some (Char.toNat '.') ∧ 0 < k2 then
      some (rest.take (k + 1 + k2), k + 1 + k2)
    else some (rest.take k, k)

/-- All matches of `(\d+)%` in `line`, each as `iter->str(1) + "%"`. -/
def percentTokens (line : Str) : List Str :=
  (regexIterate percentPatternAt 0 none line).map fun g => g ++ str "%"

/-- All matches of `(\d+(?:\.\d+)?)` in `line`, each as `iter->str(1)`. -/
def numberTokens (line : Str) : List Str :=
  regexIterate numberPatternAt 0 none line

/-! ## `splitLines` -/

/-- The `while (std::getline(stream, line))` loop: the segments between the
`\n` characters; no segment is read after the last `\n` when nothing follows
it. -/
def getLines : Str → List Str
  | [] => []
  | c :: cs =>
    if c = Char.toNat '\n' then [] :: getLines cs
    else
      match getLines cs with
      | [] => [[c]]
      | l :: ls => (c :: l) :: ls

/-- The pattern `^\s+|\s+$` tried at one position: at the start of the line the
run of whitespace; elsewhere a run of whitespace that ends the line. -/
def trimPatternAt (prev : Option Nat) (rest : Str) : Option Nat :=
  let k := runLength isSpace rest
  if prev = none ∧ 0 < k then some k
  else (greedyCounts 1 k).find? fun j => (rest.drop j).isEmpty

/-- The call `std::regex_replace(line, std::regex("^\\s+|\\s+$"), "")`. -/
def trimLine (line : Str) : Str := regexRemove trimPatternAt 0 none line

/-- The method `OCRReader::splitLines`. -/
def splitLines (text : Str) : List Str :=
  ((getLines text).map trimLine).filter fun line => !line.isEmpty

/-! ## `extractTeamNames` -/

/-- The assertion `\b` between the character `prev` (if any) and the input
`rest`: exactly one of the two sides is a word character. -/
def wordBoundary (prev : Option Nat) (rest : Str) : Bool :=
  xor (match prev with | some c => isWordChar c | none => false)
    (match rest with | c :: _ => isWordChar c | [] => false)

/-- The character before the position reached after `consumed` was matched
from a position preceded by `prev`. -/
def lastChar (prev : Option Nat) (consumed : Str) : Option Nat :=
  match consumed.getLast? with
  | some c => some c
  | none => prev

/-- What `.` matches: any character but `\n` and `\r`. -/
def isAnyChar (c : Nat) : Bool := c != Char.toNat '\n' && c != Char.toNat '\r'

/-- The pattern `\b([A-Z]{4,15})\b.*\b([A-Z]{4,15})\b` tried at one position,
giving groups 1 and 2.  Each quantifier starts from its longest run and gives
characters back one at a time while the rest of the pattern fails. -/
def twoTeamsPatternAt (prev : Option Nat) (rest : Str) : Option (Str × Str) :=
  if !wordBoundary prev rest then none
  else
    (greedyCounts 4 (min 15 (runLength isUpper rest))).findSome? fun k1 =>
      let team1 := rest.take k1
      let rest1 := rest.drop k1
      let prev1 := lastChar prev team1
      if !wordBoundary prev1 rest1 then none
      else
        (greedyCounts 0 (runLength isAnyChar rest1)).findSome? fun j =>
          let rest2 := rest1.drop j
          let prev2 := lastChar prev1 (rest1.take j)
          if !wordBoundary prev2 rest2 then none
          else
            (greedyCounts 4 (min 15 (runLength isUpper rest2))).findSome? fun k2 =>
              let team2 := rest2.take k2
              if wordBoundary (lastChar prev2 team2) (rest2.drop k2) then some (team1, team2)
              else none

/-- The call `std::regex_search`: the match at the leftmost position that has one. -/
def regexSearch {α : Type} (matchAt : Option Nat → Str → Option α) :
    Option Nat → Str → Option α
  | prev, [] => matchAt prev []
  | prev, c :: cs =>
    match matchAt prev (c :: cs) with
    | some r => some r
    | none => regexSearch matchAt (some c) cs

/-- The set `headerWords`. -/
def headerWords : List Str := [str "MATCH", str "STATS", str "STATISTIC", str "STATISTICS"]

/-- The body of the loop over the header lines: the pair taken from `line`
when the pattern matches and the pair passes the three tests. -/
def teamCandidate (line : Str) : Option (Str × Str) :=
  let upperLine := line.map toupper
  match regexSearch twoTeamsPatternAt none upperLine with
  | some (team1, team2) =>
    if team1 ∉ headerWords ∧ team2 ∉ headerWords ∧ team1 ≠ team2 then some (team1, team2)
    else none
  | none => none

/-- The "Convert to proper case" step: `::tolower` over the name, then
`std::toupper` on its first character; the empty name is left alone. -/
def properCase (team : Str) : Str :=
  match team.map tolower with
  | [] => []
  | c :: cs => toupper c :: cs

/-- The method `OCRReader::extractTeamNames`. -/
def extractTeamNames (lines : List Str) : Str × Str :=
  let (homeTeam, awayTeam) := ((lines.take 10).findSome? teamCandidate).getD ([], [])
  (properCase homeTeam, properCase awayTeam)

/-! ## `parseStatistics` -/

/-- The method `std::string::find`: the position of the first occurrence of `sub`. -/
def strFind (sub : Str) : Str → Option Nat
  | [] => if sub.isEmpty then some 0 else none
  | c :: cs =>
    if sub.isPrefixOf (c :: cs) then some 0
    else (strFind sub cs).map fun n => n + 1

/-- The order `std::less<std::string>`: byte-wise lexicographic order. -/
def strLess : Str → Str → Bool
  | [], [] => false
  | [], _ :: _ => true
  | _ :: _, [] => false
  | a :: as, b :: bs => decide (a < b) || (a == b && strLess as bs)

/-- Insertion into a `std::map`: entries are kept in key order and an entry
whose key is present already is not inserted. -/
def mapInsert (m : List (Str × Str)) (kv : Str × Str) : List (Str × Str) :=
  match m with
  | [] => [kv]
  | e :: es =>
    if strLess kv.1 e.1 then kv :: e :: es
    else if strLess e.1 kv.1 then e :: mapInsert es kv
    else e :: es

/-- The initializer list of `statMappings`, in the order of the source. -/
def statMappingsInit : List (Str × Str) :=
  [(str "shots", str "shots"),
   (str "on target", str "on target"),
   (str "xg", str "xg"),
   (str "off target", str "off target"),
   (str "clear cut chances", str "clear cut chances"),
   (str "long shots", str "long shots"),
   (str "possession", str "possession"),
   (str "corners", str "corners"),
   (str "fouls", str "fouls"),
   (str "offsides", str "offsides"),
   (str "offside", str "offsides"),
   (str "passes completed", str "passes completed"),
   (str "crosses completed", str "crosses completed"),
   (str "tackles won", str "tackles won"),
   (str "headers won", str "headers won"),
   (str "yellow cards", str "yellow cards"),
   (str "yellow", str "yellow cards"),
   (str "red cards", str "red cards"),
   (str "red", str "red cards"),
   (str "average rating", str "average rating"),
   (str "progressive passes", str "progressive passes"),
   (str "high intensity sprints", str "high intensity sprints")]

/-- The member `statMappings`: a `std::map`, iterated in key order. -/
def statMappings : List (Str × Str) := statMappingsInit.foldl mapInsert []

/-- The test that selects the percentage branch. -/
def isPercentStat (key : Str) : Bool :=
  key == str "possession" || key == str "passes completed" ||
  key == str "crosses completed" || key == str "tackles won" ||
  key == str "headers won"

/-- The first entry of `statMappings`, in iteration order, whose key occurs in
the lower-cased line: the entry at which the inner loop stops. -/
def matchedEntry (line : Str) : Option (Str × Str) :=
  let lowerLine := line.map tolower
  statMappings.find? fun statPair => (strFind statPair.1 lowerLine).isSome

/-- A `MatchStatistic` as `parseStatistics` fills it. -/
def mkStat (statName homeValue awayValue : Str) : MatchStatistic :=
  { statName := statName, homeValue := homeValue, awayValue := awayValue,
    homeTeam := [], awayTeam := [] }

/-- The percentage branch: the records pushed for `line`. -/
def percentBranch (lines : List Str) (line statName : Str) : List MatchStatistic :=
  let percentages := percentTokens line
  if 2 ≤ percentages.length then
    [mkStat statName (cleanNumericValue (percentages.getD 0 []))
      (cleanNumericValue (percentages.getD (percentages.length - 1) []))]
  else if percentages.length = 1 then
    (lines.findSome? fun other =>
      if other ≠ line then
        (percentTokens other).head?.map fun p2 =>
          mkStat statName (cleanNumericValue (percentages.getD 0 [])) (cleanNumericValue p2)
      else none).toList
  else []

/-- The numbers of at most 4 characters on `line`, in order. -/
def shortNumbers (line : Str) : List Str :=
  (numberTokens line).filter fun num => decide (num.length ≤ 4)

/-- The numeric branch: the records pushed for `line`. -/
def numberBranch (lines : List Str) (line statName : Str) : List MatchStatistic :=
  let numbers := shortNumbers line
  if 2 ≤ numbers.length then
    [mkStat statName (cleanNumericValue (numbers.getD 0 []))
      (cleanNumericValue (numbers.getD (numbers.length - 1) []))]
  else if numbers.length = 1 then
    (lines.findSome? fun other =>
      if other ≠ line then
        match (numberTokens other).head? with
        | some num2 =>
          if num2.length ≤ 4 then
            some (mkStat statName (cleanNumericValue (numbers.getD 0 [])) (cleanNumericValue num2))
          else none
        | none => none
      else none).toList
  else []

/-- The body of the loop over the lines: the records pushed for `line`. -/
def parseLine (lines : List Str) (line : Str) : List MatchStatistic :=
  match matchedEntry line with
  | some (key, statName) =>
    if isPercentStat key then percentBranch lines line statName
    else numberBranch lines line statName
  | none => []

/-- The loop `for (const auto& line : lines)` run over `todo`, a part of
`lines`, pushing onto `statistics`. -/
def parseLoop (lines : List Str) (statistics : List MatchStatistic) (todo : List Str) :
    List MatchStatistic :=
  todo.foldl (fun acc line => acc ++ parseLine lines line) statistics

/-- The method `OCRReader::parseStatistics`. -/
def parseStatistics (ocrText : Str) : List MatchStatistic :=
  let lines := splitLines ocrText
  parseLoop lines [] lines

/-- A number as the pattern `\d+(?:\.\d+)?` describes it: a non-empty run of
digits, optionally followed by `.` and another non-empty run of digits. -/
def IsNumber (s : Str) : Prop :=
  ∃ d1 : Str, d1 ≠ [] ∧ (∀ c ∈ d1, isDigit c = true) ∧
    (s = d1 ∨ ∃ d2 : Str, d2 ≠ [] ∧ (∀ c ∈ d2, isDigit c = true) ∧ s = d1 ++ str "." ++ d2)

/-! ## `processScreenshot` -/

/-- The loop "Set team names for all stats": `Home` and `Away` stand in for
empty names. -/
def setTeams (teamNames : Str × Str) (stat : MatchStatistic) : MatchStatistic :=
  { stat with
    homeTeam := if teamNames.1.isEmpty then str "Home" else teamNames.1
    awayTeam := if teamNames.2.isEmpty then str "Away" else teamNames.2 }

/-- The characters `std::endl` writes. -/
def endl : Str := str "\n"

/-- The statements of `processScreenshot` that write to `std::cout`, as the
text they write: the two team lines, then the loop over the records. -/
def writeOutput (teamNames : Str × Str) (stats : List MatchStatistic) : Str :=
  let out := str "HOME_TEAM:" ++ (if teamNames.1.isEmpty then str "UNKNOWN" else teamNames.1) ++ endl
  let out :=
    out ++ (str "AWAY_TEAM:" ++ (if teamNames.2.isEmpty then str "UNKNOWN" else teamNames.2) ++ endl)
  stats.foldl
    (fun out stat =>
      out ++ (str "STAT:" ++ stat.statName ++ str "|" ++ stat.homeValue ++ str "|" ++
        stat.awayValue ++ endl))
    out

/-- The method `OCRReader::processScreenshot`, as the text it writes to
`std::cout`.  The image and the recognizer are outside the embedding: `ocr` is
`none` when the image could not be loaded, else the texts the two calls of
`performOCR` return, for the header first and for the whole image second. -/
def processScreenshot (ocr : Option (Str × Str)) : Str :=
  match ocr with
  | none => []
  | some (headerOcrText, ocrText) =>
    let headerLines := splitLines headerOcrText
    let teamNames := extractTeamNames headerLines
    let stats := parseStatistics ocrText
    let stats := stats.map (setTeams teamNames)
    writeOutput teamNames stats

/-- The output lines as the specification lists them: `HOME_TEAM:` and
`AWAY_TEAM:` with the name, or `UNKNOWN` for an empty name, then one line
`STAT:name|home|away` for each record. -/
def outputContract (teamNames : Str × Str) (stats : List MatchStatistic) : List Str :=
  (str "HOME_TEAM:" ++ (if teamNames.1 = [] then str "UNKNOWN" else teamNames.1)) ::
  (str "AWAY_TEAM:" ++ (if teamNames.2 = [] then str "UNKNOWN" else teamNames.2)) ::
  stats.map fun stat =>
    str "STAT:" ++ stat.statName ++ str "|" ++ stat.homeValue ++ str "|" ++ stat.awayValue

/-- What a capture group `([A-Z]{4,15})` holds: 4 to 15 letters `A`-`Z`. -/
def IsTeamToken (t : Str) : Prop :=
  4 ≤ t.length ∧ t.length ≤ 15 ∧ ∀ c ∈ t, isUpper c = true

/-- The pattern `\b[A-Z]{4,15}\b` tried at one position: the length of the
whole word of 4 to 15 capital letters that starts there, if one does. -/
def tokenLenAt (prev : Option Nat) (rest : Str) : Option Nat :=
  let k := runLength isUpper rest
  if wordBoundary prev rest = true ∧ 4 ≤ k ∧ k ≤ 15 ∧
      wordBoundary (lastChar prev (rest.take k)) (rest.drop k) = true then some k
  else none

/-- A whole word of 4 to 15 capital letters in its place: `t` stands between
`before` and `after`, and neither the character before it nor the character
after it is a word character. -/
def IsWholeWord (before t after : Str) : Prop :=
  IsTeamToken t ∧ (∀ c ∈ before.getLast?, isWordChar c = false) ∧
    (∀ c ∈ after.head?, isWordChar c = false)

/-- The whole word of 4 to 15 capital letters that starts at position `n` of
`u`, as its length, if one starts there. -/
def tokenAt (u : Str) (n : Nat) : Option Nat :=
  tokenLenAt (lastChar none (u.take n)) (u.drop n)

/-! ## Lemmas: `cleanNumericValue` -/

theorem isDigit_iff {c : Nat} : isDigit c = true ↔ 48 ≤ c ∧ c ≤ 57 := by
  simp [isDigit]

theorem isUpper_iff {c : Nat} : isUpper c = true ↔ 65 ≤ c ∧ c ≤ 90 := by
  simp [isUpper]

theorem isLower_iff {c : Nat} : isLower c = true ↔ 97 ≤ c ∧ c ≤ 122 := by
  simp [isLower]

theorem cleanNumericValue_eq_map (value : Str) :
    cleanNumericValue value =
      value.map fun c =>
        if c = Char.toNat 'o' ∨ c = Char.toNat 'O' then Char.toNat '0'
        else if c = Char.toNat 'l' ∨ c = Char.toNat 'I' then Char.toNat '1'
        else c := by
  simp only [cleanNumericValue, replaceOh, replaceEll, List.map_map]
  apply List.map_congr_left
  intro c _
  simp only [Function.comp, Char.reduceToNat]
  split_ifs <;> omega

theorem cleanNumericValue_length (value : Str) :
    (cleanNumericValue value).length = value.length := by
  simp [cleanNumericValue_eq_map]

/-- A value made of digits, `.` and `%` only is left as it is. -/
theorem cleanNumericValue_of_numeric (value : Str)
    (h : ∀ c ∈ value, isDigit c = true ∨ c = Char.toNat '.' ∨ c = Char.toNat '%') :
    cleanNumericValue value = value := by
  rw [cleanNumericValue_eq_map]
  conv_rhs => rw [← List.map_id value]
  apply List.map_congr_left
  intro c hc
  have hc := h c hc
  simp only [isDigit_iff, Char.reduceToNat] at hc
  simp only [id, Char.reduceToNat]
  split_ifs <;> omega

/-! ## Lemmas: scanning -/

theorem mem_greedyCounts {lo hi k : Nat} : k ∈ greedyCounts lo hi ↔ lo ≤ k ∧ k ≤ hi := by
  simp only [greedyCounts, List.mem_reverse, List.mem_filter, List.mem_range,
    decide_eq_true_eq]
  omega

theorem forall_mem_take_runLength (p : Nat → Bool) :
    ∀ (s : Str) (k : Nat), k ≤ runLength p s → ∀ c ∈ s.take k, p c = true
  | [], _, _, c, hc => by simp at hc
  | a :: as, 0, _, c, hc => by simp at hc
  | a :: as, k + 1, hk, c, hc => by
    simp only [runLength] at hk
    by_cases ha : p a = true
    · simp only [ha, if_true] at hk
      simp only [List.take_succ_cons, List.mem_cons] at hc
      rcases hc with rfl | hc
      · exact ha
      · exact forall_mem_take_runLength p as k (by omega) c hc
    · simp [ha] at hk

theorem runLength_le_length (p : Nat → Bool) : ∀ s : Str, runLength p s ≤ s.length
  | [] => by simp [runLength]
  | a :: as => by
    have := runLength_le_length p as
    simp only [runLength, List.length_cons]
    split_ifs <;> omega

/-- Every value the iterator yields is the value of a match at some position. -/
theorem regexIterate_forall {α : Type} (matchAt : Option Nat → Str → Option (α × Nat))
    (P : α → Prop)
    (h : ∀ prev rest v len, matchAt prev rest = some (v, len) → P v) :
    ∀ (s : Str) (skip : Nat) (prev : Option Nat), ∀ v ∈ regexIterate matchAt skip prev s, P v
  | [], skip, prev, v, hv => by simp [regexIterate] at hv
  | c :: cs, skip + 1, prev, v, hv => by
    simp only [regexIterate] at hv
    exact regexIterate_forall matchAt P h cs skip (some c) v hv
  | c :: cs, 0, prev, v, hv => by
    simp only [regexIterate] at hv
    cases hm : matchAt prev (c :: cs) with
    | none =>
      simp only [hm] at hv
      exact regexIterate_forall matchAt P h cs 0 (some c) v hv
    | some r =>
      obtain ⟨w, len⟩ := r
      simp only [hm, List.mem_cons] at hv
      rcases hv with rfl | hv
      · exact h prev (c :: cs) _ len hm
      · exact regexIterate_forall matchAt P h cs (len - 1) (some c) v hv

theorem percentPatternAt_digits {prev : Option Nat} {rest g : Str} {len : Nat}
    (h : percentPatternAt prev rest = some (g, len)) :
    g ≠ [] ∧ ∀ c ∈ g, isDigit c = true := by
  simp only [percentPatternAt] at h
  obtain ⟨k, hk, hf⟩ := List.exists_of_findSome?_eq_some h
  rw [mem_greedyCounts] at hk
  split_ifs at hf with h37
  simp only [Option.some.injEq, Prod.mk.injEq] at hf
  obtain ⟨rfl, -⟩ := hf
  refine ⟨?_, forall_mem_take_runLength isDigit rest k hk.2⟩
  have hlen := runLength_le_length isDigit rest
  intro h0
  have : (rest.take k).length = 0 := by rw [h0]; rfl
  rw [List.length_take] at this
  omega

theorem numberPatternAt_chars {prev : Option Nat} {rest v : Str} {len : Nat}
    (h : numberPatternAt prev rest = some (v, len)) :
    ∀ c ∈ v, isDigit c = true ∨ c = Char.toNat '.' := by
  simp only [numberPatternAt] at h
  split_ifs at h with h0 hfrac
  · simp only [Option.some.injEq, Prod.mk.injEq] at h
    obtain ⟨rfl, -⟩ := h
    intro c hc
    have hsplit : rest.take (runLength isDigit rest + 1 + runLength isDigit (rest.drop (runLength isDigit rest)).tail)
        = rest.take (runLength isDigit rest) ++
          (rest.drop (runLength isDigit rest)).take (1 + runLength isDigit (rest.drop (runLength isDigit rest)).tail) := by
      rw [Nat.add_assoc, List.take_add]
    rw [hsplit] at hc
    rcases List.mem_append.1 hc with hc | hc
    · exact Or.inl (forall_mem_take_runLength isDigit rest _ (Nat.le_refl _) c hc)
    · generalize rest.drop (runLength isDigit rest) = frac at hfrac hc
      cases frac with
      | nil => simp at hfrac
      | cons d ds =>
        simp only [List.head?_cons, Option.some.injEq, List.tail_cons] at hfrac
        simp only [List.tail_cons, Nat.add_comm 1, List.take_succ_cons, List.mem_cons] at hc
        rcases hc with rfl | hc
        · exact Or.inr hfrac.1
        · exact Or.inl (forall_mem_take_runLength isDigit ds _ (Nat.le_refl _) c hc)
  · simp only [Option.some.injEq, Prod.mk.injEq] at h
    obtain ⟨rfl, -⟩ := h
    intro c hc
    exact Or.inl (forall_mem_take_runLength isDigit rest _ (Nat.le_refl _) c hc)

/-- A percentage token is a non-empty run of digits followed by `%`. -/
theorem percentTokens_shape {line t : Str} (h : t ∈ percentTokens line) :
    ∃ g : Str, t = g ++ str "%" ∧ g ≠ [] ∧ ∀ c ∈ g, isDigit c = true := by
  simp only [percentTokens, List.mem_map] at h
  obtain ⟨g, hg, rfl⟩ := h
  have := regexIterate_forall percentPatternAt
    (fun g => g ≠ [] ∧ ∀ c ∈ g, isDigit c = true)
    (fun _ _ _ _ hm => percentPatternAt_digits hm) line 0 none g hg
  exact ⟨g, rfl, this⟩

/-- A number token consists of digits and `.` only. -/
theorem numberTokens_chars {line t : Str} (h : t ∈ numberTokens line) :
    ∀ c ∈ t, isDigit c = true ∨ c = Char.toNat '.' :=
  regexIterate_forall numberPatternAt (fun t => ∀ c ∈ t, isDigit c = true ∨ c = Char.toNat '.')
    (fun _ _ _ _ hm => numberPatternAt_chars hm) line 0 none t h

theorem cleanNumericValue_percentToken {line t : Str} (h : t ∈ percentTokens line) :
    cleanNumericValue t = t := by
  obtain ⟨g, rfl, -, hg⟩ := percentTokens_shape h
  apply cleanNumericValue_of_numeric
  intro c hc
  rcases List.mem_append.1 hc with hc | hc
  · exact Or.inl (hg c hc)
  · have : c = Char.toNat '%' := by simpa [str] using hc
    exact Or.inr (Or.inr this)

theorem cleanNumericValue_numberToken {line t : Str} (h : t ∈ numberTokens line) :
    cleanNumericValue t = t := by
  apply cleanNumericValue_of_numeric
  intro c hc
  rcases numberTokens_chars h c hc with hd | hd
  · exact Or.inl hd
  · exact Or.inr (Or.inl hd)

/-! ## Lemmas: the loop of `parseStatistics` -/

theorem parseLoop_acc (lines : List Str) :
    ∀ (todo : List Str) (acc : List MatchStatistic),
      parseLoop lines acc todo = acc ++ parseLoop lines [] todo
  | [], acc => by simp [parseLoop]
  | l :: ls, acc => by
    have h1 := parseLoop_acc lines ls (acc ++ parseLine lines l)
    have h2 := parseLoop_acc lines ls ([] ++ parseLine lines l)
    simp only [parseLoop, List.foldl_cons] at h1 h2 ⊢
    rw [h1, h2]
    simp

theorem parseLoop_cons (lines : List Str) (l : Str) (ls : List Str) :
    parseLoop lines [] (l :: ls) = parseLine lines l ++ parseLoop lines [] ls := by
  have h := parseLoop_acc lines ls ([] ++ parseLine lines l)
  simp only [parseLoop, List.foldl_cons] at h ⊢
  rw [h]
  simp

theorem parseLoop_append (lines : List Str) :
    ∀ (a b : List Str),
      parseLoop lines [] (a ++ b) = parseLoop lines [] a ++ parseLoop lines [] b
  | [], b => by simp [parseLoop]
  | l :: ls, b => by
    rw [List.cons_append, parseLoop_cons, parseLoop_cons, parseLoop_append lines ls b]
    simp

/-- The output of `parseStatistics` is, line by line, what the loop body
pushes: for a line at any place of the text, the records of the lines before
it, then its own, then those of the lines after it. -/
theorem parseStatistics_at_line {ocrText line : Str} {pre post : List Str}
    (h : splitLines ocrText = pre ++ line :: post) :
    parseStatistics ocrText =
      parseLoop (splitLines ocrText) [] pre ++ parseLine (splitLines ocrText) line ++
        parseLoop (splitLines ocrText) [] post := by
  have h2 : parseStatistics ocrText
      = parseLoop (splitLines ocrText) [] (pre ++ line :: post) := by
    simp only [parseStatistics]
    rw [← h]
  rw [h2, parseLoop_append, parseLoop_cons]
  simp

theorem mem_parseLoop {lines : List Str} {r : MatchStatistic} :
    ∀ {todo : List Str}, r ∈ parseLoop lines [] todo → ∃ line ∈ todo, r ∈ parseLine lines line
  | [], h => by simp [parseLoop] at h
  | l :: ls, h => by
    rw [parseLoop_cons] at h
    rcases List.mem_append.1 h with h | h
    · exact ⟨l, List.mem_cons_self _ _, h⟩
    · obtain ⟨line, hl, hr⟩ := mem_parseLoop h
      exact ⟨line, List.mem_cons_of_mem _ hl, hr⟩

theorem getD_first_last (first last : Str) (mid : List Str) :
    (first :: (mid ++ [last])).getD 0 [] = first ∧
    (first :: (mid ++ [last])).getD ((first :: (mid ++ [last])).length - 1) [] = last ∧
    2 ≤ (first :: (mid ++ [last])).length := by
  refine ⟨rfl, ?_, by simp⟩
  have : (first :: (mid ++ [last])).length - 1 = mid.length + 1 := by simp
  rw [this]
  simp [List.getD_eq_getElem?_getD, List.getElem?_append_right]

theorem mem_shortNumbers {line t : Str} (h : t ∈ shortNumbers line) :
    t ∈ numberTokens line ∧ t.length ≤ 4 := by
  simpa [shortNumbers] using h

/-- The numeric branch with at least two short numbers on the line. -/
theorem numberBranch_two (lines : List Str) (line statName first last : Str) (mid : List Str)
    (h : shortNumbers line = first :: (mid ++ [last])) :
    numberBranch lines line statName = [mkStat statName first last] := by
  obtain ⟨h0, h1, h2⟩ := getD_first_last first last mid
  have hf : first ∈ shortNumbers line := by rw [h]; simp
  have hl : last ∈ shortNumbers line := by rw [h]; simp
  simp only [numberBranch, h, h2, if_true, h0, h1]
  rw [cleanNumericValue_numberToken (mem_shortNumbers hf).1,
    cleanNumericValue_numberToken (mem_shortNumbers hl).1]

/-- The percentage branch with at least two percentages on the line. -/
theorem percentBranch_two (lines : List Str) (line statName first last : Str) (mid : List Str)
    (h : percentTokens line = first :: (mid ++ [last])) :
    percentBranch lines line statName = [mkStat statName first last] := by
  obtain ⟨h0, h1, h2⟩ := getD_first_last first last mid
  have hf : first ∈ percentTokens line := by rw [h]; simp
  have hl : last ∈ percentTokens line := by rw [h]; simp
  simp only [percentBranch, h, h2, if_true, h0, h1]
  rw [cleanNumericValue_percentToken hf, cleanNumericValue_percentToken hl]

theorem parseLine_number {lines : List Str} {line key statName : Str}
    (hentry : matchedEntry line = some (key, statName)) (hmode : isPercentStat key = false) :
    parseLine lines line = numberBranch lines line statName := by
  simp [parseLine, hentry, hmode]

theorem parseLine_percent {lines : List Str} {line key statName : Str}
    (hentry : matchedEntry line = some (key, statName)) (hmode : isPercentStat key = true) :
    parseLine lines line = percentBranch lines line statName := by
  simp [parseLine, hentry, hmode]

/-! ## Lemmas: the search of the other lines -/

theorem toList_ne_nil_iff {α : Type} (o : Option α) : o.toList ≠ [] ↔ o.isSome = true := by
  cases o <;> simp [Option.toList]

theorem percentBranch_one_eq (lines : List Str) {line p : Str} (statName : Str)
    (hone : percentTokens line = [p]) :
    percentBranch lines line statName =
      (lines.findSome? fun other =>
        if other ≠ line then
          (percentTokens other).head?.map fun p2 =>
            mkStat statName (cleanNumericValue p) (cleanNumericValue p2)
        else none).toList := by
  simp only [percentBranch, hone]
  rfl

theorem numberBranch_one_eq (lines : List Str) {line a : Str} (statName : Str)
    (hone : shortNumbers line = [a]) :
    numberBranch lines line statName =
      (lines.findSome? fun other =>
        if other ≠ line then
          match (numberTokens other).head? with
          | some num2 =>
            if num2.length ≤ 4 then
              some (mkStat statName (cleanNumericValue a) (cleanNumericValue num2))
            else none
          | none => none
        else none).toList := by
  simp only [numberBranch, hone]
  rfl

/-- The percentage branch with exactly one percentage on the line: the search
stops at the first line of different text that has a percentage. -/
theorem percentBranch_one_found {lines before after more : List Str}
    {line statName p other p2 : Str}
    (hone : percentTokens line = [p])
    (hlines : lines = before ++ other :: after)
    (hbefore : ∀ l ∈ before, l = line ∨ percentTokens l = [])
    (hne : other ≠ line) (hother : percentTokens other = p2 :: more) :
    percentBranch lines line statName = [mkStat statName p p2] := by
  have hp : p ∈ percentTokens line := by rw [hone]; simp
  have hp2 : p2 ∈ percentTokens other := by rw [hother]; simp
  have hnone : before.findSome? (fun other =>
      if other ≠ line then
        (percentTokens other).head?.map fun p2 =>
          mkStat statName (cleanNumericValue p) (cleanNumericValue p2)
      else none) = none := by
    rw [List.findSome?_eq_none_iff]
    intro l hl
    rcases hbefore l hl with h | h
    · simp [h]
    · simp [h]
  rw [percentBranch_one_eq lines statName hone, hlines, List.findSome?_append, hnone]
  simp [hne, hother, cleanNumericValue_percentToken hp, cleanNumericValue_percentToken hp2]

theorem percentBranch_one_ne_nil_iff {lines : List Str} {line statName p : Str}
    (hone : percentTokens line = [p]) :
    percentBranch lines line statName ≠ [] ↔
      ∃ other ∈ lines, other ≠ line ∧ percentTokens other ≠ [] := by
  rw [percentBranch_one_eq lines statName hone, toList_ne_nil_iff, List.findSome?_isSome_iff]
  constructor
  · rintro ⟨other, hmem, hsome⟩
    refine ⟨other, hmem, ?_⟩
    by_cases hne : other = line
    · simp [hne] at hsome
    · refine ⟨hne, ?_⟩
      intro hnil
      simp [hne, hnil] at hsome
  · rintro ⟨other, hmem, hne, htok⟩
    refine ⟨other, hmem, ?_⟩
    cases hother : percentTokens other with
    | nil => exact absurd hother htok
    | cons p2 more => simp [hne]

/-- The numeric branch with exactly one short number on the line: the search
stops at the first line of different text whose first number is short. -/
theorem numberBranch_one_found {lines before after more : List Str}
    {line statName a other n2 : Str}
    (hone : shortNumbers line = [a])
    (hlines : lines = before ++ other :: after)
    (hbefore : ∀ l ∈ before, l = line ∨ ∀ n ∈ (numberTokens l).head?, 4 < n.length)
    (hne : other ≠ line) (hother : numberTokens other = n2 :: more) (hshort : n2.length ≤ 4) :
    numberBranch lines line statName = [mkStat statName a n2] := by
  have ha : a ∈ shortNumbers line := by rw [hone]; simp
  have hn2 : n2 ∈ numberTokens other := by rw [hother]; simp
  have hnone : before.findSome? (fun other =>
      if other ≠ line then
        match (numberTokens other).head? with
        | some num2 =>
          if num2.length ≤ 4 then
            some (mkStat statName (cleanNumericValue a) (cleanNumericValue num2))
          else none
        | none => none
      else none) = none := by
    rw [List.findSome?_eq_none_iff]
    intro l hl
    rcases hbefore l hl with h | h
    · simp [h]
    · cases hh : (numberTokens l).head? with
      | none => simp
      | some n =>
        have := h n (by simp [hh])
        simp only [ite_eq_right_iff]
        intro _ hle
        omega
  rw [numberBranch_one_eq lines statName hone, hlines, List.findSome?_append, hnone]
  simp [hne, hother, hshort, cleanNumericValue_numberToken (mem_shortNumbers ha).1,
    cleanNumericValue_numberToken hn2]

theorem numberBranch_one_ne_nil_iff {lines : List Str} {line statName a : Str}
    (hone : shortNumbers line = [a]) :
    numberBranch lines line statName ≠ [] ↔
      ∃ other ∈ lines, other ≠ line ∧ ∃ n ∈ (numberTokens other).head?, n.length ≤ 4 := by
  rw [numberBranch_one_eq lines statName hone, toList_ne_nil_iff, List.findSome?_isSome_iff]
  constructor
  · rintro ⟨other, hmem, hsome⟩
    refine ⟨other, hmem, ?_⟩
    by_cases hne : other = line
    · simp [hne] at hsome
    · refine ⟨hne, ?_⟩
      cases hh : (numberTokens other).head? with
      | none => simp [hne, hh] at hsome
      | some n =>
        refine ⟨n, by simp, ?_⟩
        by_contra hlen
        simp [hne, hh, hlen] at hsome
  · rintro ⟨other, hmem, hne, n, hn, hlen⟩
    refine ⟨other, hmem, ?_⟩
    have hh : (numberTokens other).head? = some n := by simpa using hn
    simp [hne, hh, hlen]

/-! ## Lemmas: the records of each branch -/

/-- The canonical name of an entry is one of the percentage names exactly when
its key is. -/
theorem statMappings_percent_name :
    ∀ e ∈ statMappings, isPercentStat e.2 = isPercentStat e.1 := by
  decide

theorem matchedEntry_mem {line : Str} {e : Str × Str} (h : matchedEntry line = some e) :
    e ∈ statMappings := by
  simp only [matchedEntry] at h
  exact List.mem_of_find?_eq_some h

theorem getD_length_le (l : List Str) (h : ∀ t ∈ l, t.length ≤ 4) (i : Nat) :
    (l.getD i []).length ≤ 4 := by
  rw [List.getD_eq_getElem?_getD]
  cases hi : l[i]? with
  | none => simp
  | some t =>
    have hmem : t ∈ l := by
      rw [List.getElem?_eq_some_iff] at hi
      obtain ⟨hlt, rfl⟩ := hi
      exact List.getElem_mem hlt
    simpa using h t hmem

theorem mem_numberBranch {lines : List Str} {line statName : Str} {r : MatchStatistic}
    (h : r ∈ numberBranch lines line statName) :
    r.statName = statName ∧ r.homeValue.length ≤ 4 ∧ r.awayValue.length ≤ 4 := by
  have hshort : ∀ i, ((shortNumbers line).getD i []).length ≤ 4 :=
    getD_length_le _ fun t ht => (mem_shortNumbers ht).2
  simp only [numberBranch] at h
  split_ifs at h with h2 h1
  · simp only [List.mem_singleton] at h
    subst h
    simp only [mkStat, cleanNumericValue_length]
    exact ⟨trivial, hshort _, hshort _⟩
  · rw [Option.mem_toList] at h
    obtain ⟨other, -, hf⟩ := List.exists_of_findSome?_eq_some h
    split_ifs at hf with hne
    cases hh : (numberTokens other).head? with
    | none => simp [hh] at hf
    | some n =>
      simp only [hh] at hf
      split_ifs at hf with hlen
      simp only [Option.some.injEq] at hf
      subst hf
      simp only [mkStat, cleanNumericValue_length]
      exact ⟨trivial, hshort _, hlen⟩
  · simp at h

theorem mem_percentBranch {lines : List Str} {line statName : Str} {r : MatchStatistic}
    (h : r ∈ percentBranch lines line statName) : r.statName = statName := by
  simp only [percentBranch] at h
  split_ifs at h with h2 h1
  · simp only [List.mem_singleton] at h
    subst h
    rfl
  · rw [Option.mem_toList] at h
    obtain ⟨other, -, hf⟩ := List.exists_of_findSome?_eq_some h
    split_ifs at hf with hne
    cases hh : (percentTokens other).head? with
    | none => simp [hh] at hf
    | some n =>
      simp only [hh, Option.map_some', Option.some.injEq] at hf
      subst hf
      rfl
  · simp at h

/-- Every record pushed for a line carries the canonical name of the entry the
line matched; in the numeric branch both values have at most 4 characters. -/
theorem mem_parseLine {lines : List Str} {line : Str} {r : MatchStatistic}
    (h : r ∈ parseLine lines line) :
    ∃ key, matchedEntry line = some (key, r.statName) ∧
      (isPercentStat key = false → r.homeValue.length ≤ 4 ∧ r.awayValue.length ≤ 4) := by
  simp only [parseLine] at h
  cases hentry : matchedEntry line with
  | none => simp [hentry] at h
  | some e =>
    obtain ⟨key, statName⟩ := e
    simp only [hentry] at h
    split_ifs at h with hmode
    · have := mem_percentBranch h
      subst this
      exact ⟨key, rfl, fun hf => by simp [hmode] at hf⟩
    · obtain ⟨h1, h2⟩ := mem_numberBranch h
      subst h1
      exact ⟨key, rfl, fun _ => h2⟩

/-! ## Lemmas: `extractTeamNames` -/

theorem regexSearch_forall {α : Type} (matchAt : Option Nat → Str → Option α) (P : α → Prop)
    (h : ∀ prev rest r, matchAt prev rest = some r → P r) :
    ∀ (s : Str) (prev : Option Nat) (r : α), regexSearch matchAt prev s = some r → P r
  | [], prev, r, hr => h prev [] r (by simpa [regexSearch] using hr)
  | c :: cs, prev, r, hr => by
    simp only [regexSearch] at hr
    cases hm : matchAt prev (c :: cs) with
    | some r2 =>
      simp only [hm, Option.some.injEq] at hr
      subst hr
      exact h prev (c :: cs) _ hm
    | none =>
      simp only [hm] at hr
      exact regexSearch_forall matchAt P h cs (some c) r hr

theorem isTeamToken_take {rest : Str} {k : Nat}
    (hk : k ∈ greedyCounts 4 (min 15 (runLength isUpper rest))) : IsTeamToken (rest.take k) := by
  rw [mem_greedyCounts] at hk
  have hlen := runLength_le_length isUpper rest
  have hk2 : k ≤ runLength isUpper rest := le_trans hk.2 (Nat.min_le_right _ _)
  have hk3 : k ≤ 15 := le_trans hk.2 (Nat.min_le_left _ _)
  have hl : (rest.take k).length = k := by
    rw [List.length_take]
    omega
  exact ⟨by omega, by omega, forall_mem_take_runLength isUpper rest k hk2⟩

theorem twoTeamsPatternAt_shape {prev : Option Nat} {rest t1 t2 : Str}
    (h : twoTeamsPatternAt prev rest = some (t1, t2)) : IsTeamToken t1 ∧ IsTeamToken t2 := by
  simp only [twoTeamsPatternAt] at h
  split_ifs at h with hb0
  obtain ⟨k1, hk1, h⟩ := List.exists_of_findSome?_eq_some h
  split_ifs at h with hb1
  obtain ⟨j, -, h⟩ := List.exists_of_findSome?_eq_some h
  split_ifs at h with hb2
  obtain ⟨k2, hk2, h⟩ := List.exists_of_findSome?_eq_some h
  split_ifs at h with hb3
  simp only [Option.some.injEq, Prod.mk.injEq] at h
  obtain ⟨rfl, rfl⟩ := h
  exact ⟨isTeamToken_take hk1, isTeamToken_take hk2⟩

/-- An accepted pair: two different tokens of 4 to 15 capital letters, neither
of them a header word. -/
theorem teamCandidate_some {line t1 t2 : Str} (h : teamCandidate line = some (t1, t2)) :
    IsTeamToken t1 ∧ IsTeamToken t2 ∧ t1 ∉ headerWords ∧ t2 ∉ headerWords ∧ t1 ≠ t2 := by
  simp only [teamCandidate] at h
  cases hs : regexSearch twoTeamsPatternAt none (line.map toupper) with
  | none => simp [hs] at h
  | some r =>
    obtain ⟨a, b⟩ := r
    simp only [hs] at h
    split_ifs at h with hacc
    simp only [Option.some.injEq, Prod.mk.injEq] at h
    obtain ⟨rfl, rfl⟩ := h
    have := regexSearch_forall twoTeamsPatternAt (fun r => IsTeamToken r.1 ∧ IsTeamToken r.2)
      (fun _ _ r hr => @twoTeamsPatternAt_shape _ _ r.1 r.2 hr) _ _ _ hs
    exact ⟨this.1, this.2, hacc.1, hacc.2.1, hacc.2.2⟩

theorem toupper_of_isUpper {c : Nat} (h : isUpper c = true) : toupper c = c := by
  rw [isUpper_iff] at h
  simp only [toupper, isLower_iff, Char.reduceToNat]
  split_ifs <;> omega

theorem toupper_tolower_of_isUpper {c : Nat} (h : isUpper c = true) :
    toupper (tolower c) = c := by
  rw [isUpper_iff] at h
  simp only [toupper, tolower, isLower_iff, isUpper_iff, Char.reduceToNat]
  split_ifs <;> omega

/-- Upper-casing a title-cased token of capital letters gives the token back. -/
theorem map_toupper_properCase {t : Str} (h : ∀ c ∈ t, isUpper c = true) :
    (properCase t).map toupper = t := by
  cases t with
  | nil => rfl
  | cons a as =>
    have ha := h a (List.mem_cons_self _ _)
    simp only [properCase, List.map_cons, List.map_map]
    rw [toupper_tolower_of_isUpper ha, toupper_of_isUpper ha]
    congr 1
    conv_rhs => rw [← List.map_id as]
    apply List.map_congr_left
    intro c hc
    exact toupper_tolower_of_isUpper (h c (List.mem_cons_of_mem _ hc))

theorem properCase_length (t : Str) : (properCase t).length = t.length := by
  cases t with
  | nil => rfl
  | cons a as => simp [properCase]

/-- The result of `extractTeamNames`: the empty pair when none of the first 10
lines gives an accepted pair, else the title-cased pair of one line. -/
theorem extractTeamNames_cases (lines : List Str) :
    ((∀ line ∈ lines.take 10, teamCandidate line = none) ∧
        extractTeamNames lines = ([], [])) ∨
      ∃ line ∈ lines.take 10, ∃ t1 t2, teamCandidate line = some (t1, t2) ∧
        extractTeamNames lines = (properCase t1, properCase t2) := by
  cases hf : (lines.take 10).findSome? teamCandidate with
  | none =>
    left
    refine ⟨List.findSome?_eq_none_iff.1 hf, ?_⟩
    simp [extractTeamNames, hf, properCase]
  | some r =>
    right
    obtain ⟨t1, t2⟩ := r
    obtain ⟨line, hmem, hc⟩ := List.exists_of_findSome?_eq_some hf
    exact ⟨line, hmem, t1, t2, hc, by simp [extractTeamNames, hf]⟩

/-! ## The iteration order of `statMappings` -/

/-- The keys of `statMappings` in the order in which the `std::map` is
iterated. -/
theorem statMappings_keys :
    statMappings.map Prod.fst =
      [str "average rating", str "clear cut chances", str "corners", str "crosses completed",
       str "fouls", str "headers won", str "high intensity sprints", str "long shots",
       str "off target", str "offside", str "offsides", str "on target",
       str "passes completed", str "possession", str "progressive passes", str "red",
       str "red cards", str "shots", str "tackles won", str "xg", str "yellow",
       str "yellow cards"] := by
  decide

/-! ## `parseStatistics`: values taken from the label line -/

/-- Claim C1. A line whose matched entry is a numeric one and which holds at
least two numbers of at most 4 characters contributes exactly one record: the
canonical name of the entry, the first such number as home value and the last
one as away value, whatever lies between them.  The text `Shots 12 9` gives
the one record (shots, 12, 9). -/
theorem parseStatistics_numeric_first_last (ocrText line key statName first last : Str)
    (pre post mid : List Str)
    (hline : splitLines ocrText = pre ++ line :: post)
    (hentry : matchedEntry line = some (key, statName))
    (hmode : isPercentStat key = false)
    (hnums : shortNumbers line = first :: (mid ++ [last])) :
    parseLine (splitLines ocrText) line = [mkStat statName first last] ∧
    parseStatistics ocrText =
      parseLoop (splitLines ocrText) [] pre ++ mkStat statName first last ::
        parseLoop (splitLines ocrText) [] post ∧
    parseStatistics (str "Shots 12 9") = [mkStat (str "shots") (str "12") (str "9")] := by
  have hrec : parseLine (splitLines ocrText) line = [mkStat statName first last] := by
    rw [parseLine_number hentry hmode]
    exact numberBranch_two _ line statName first last mid hnums
  refine ⟨hrec, ?_, by decide⟩
  rw [parseStatistics_at_line hline, hrec]
  simp

/-- The line `Shots 12 7 9` between two other lines: the record is
(shots, 12, 9) and stands between the records of its neighbours. -/
theorem parseStatistics_numeric_first_last_witness :
    splitLines (str "Fouls 3 4\nShots 12 7 9\nxG 1.5 0.4") =
      [str "Fouls 3 4"] ++ str "Shots 12 7 9" :: [str "xG 1.5 0.4"] ∧
    matchedEntry (str "Shots 12 7 9") = some (str "shots", str "shots") ∧
    isPercentStat (str "shots") = false ∧
    shortNumbers (str "Shots 12 7 9") = str "12" :: ([str "7"] ++ [str "9"]) ∧
    parseStatistics (str "Fouls 3 4\nShots 12 7 9\nxG 1.5 0.4") =
      [mkStat (str "fouls") (str "3") (str "4"), mkStat (str "shots") (str "12") (str "9"),
       mkStat (str "xg") (str "1.5") (str "0.4")] :=
  ⟨by decide, by decide, by decide, by decide,
    (parseStatistics_numeric_first_last (str "Fouls 3 4\nShots 12 7 9\nxG 1.5 0.4")
      (str "Shots 12 7 9") (str "shots") (str "shots") (str "12") (str "9")
      [str "Fouls 3 4"] [str "xG 1.5 0.4"] [str "7"]
      (by decide) (by decide) (by decide) (by decide)).2.1.trans (by decide)⟩

/-- Claim C3. A line whose matched entry is a percentage one and which holds at
least two percentages contributes exactly one record: the first percentage as
home value and the last one as away value, each a run of digits with its `%`.
The text `Possession 54% 46%` gives the one record (possession, 54%, 46%). -/
theorem parseStatistics_percent_first_last (ocrText line key statName first last : Str)
    (pre post mid : List Str)
    (hline : splitLines ocrText = pre ++ line :: post)
    (hentry : matchedEntry line = some (key, statName))
    (hmode : isPercentStat key = true)
    (htoks : percentTokens line = first :: (mid ++ [last])) :
    parseLine (splitLines ocrText) line = [mkStat statName first last] ∧
    parseStatistics ocrText =
      parseLoop (splitLines ocrText) [] pre ++ mkStat statName first last ::
        parseLoop (splitLines ocrText) [] post ∧
    (∃ d1 d2 : Str, first = d1 ++ str "%" ∧ last = d2 ++ str "%" ∧
      d1 ≠ [] ∧ d2 ≠ [] ∧ (∀ c ∈ d1 ++ d2, isDigit c = true)) ∧
    parseStatistics (str "Possession 54% 46%") =
      [mkStat (str "possession") (str "54%") (str "46%")] := by
  have hrec : parseLine (splitLines ocrText) line = [mkStat statName first last] := by
    rw [parseLine_percent hentry hmode]
    exact percentBranch_two _ line statName first last mid htoks
  have hf : first ∈ percentTokens line := by rw [htoks]; simp
  have hl : last ∈ percentTokens line := by rw [htoks]; simp
  obtain ⟨d1, h1, hne1, hd1⟩ := percentTokens_shape hf
  obtain ⟨d2, h2, hne2, hd2⟩ := percentTokens_shape hl
  refine ⟨hrec, ?_, ⟨d1, d2, h1, h2, hne1, hne2, ?_⟩, by decide⟩
  · rw [parseStatistics_at_line hline, hrec]
    simp
  · intro c hc
    rcases List.mem_append.1 hc with hc | hc
    · exact hd1 c hc
    · exact hd2 c hc

/-- The line `Passes Completed 81% 9% 77%` after another line: the record is
(passes completed, 81%, 77%). -/
theorem parseStatistics_percent_first_last_witness :
    splitLines (str "Shots 1 2\nPasses Completed 81% 9% 77%") =
      [str "Shots 1 2"] ++ str "Passes Completed 81% 9% 77%" :: [] ∧
    matchedEntry (str "Passes Completed 81% 9% 77%") =
      some (str "passes completed", str "passes completed") ∧
    isPercentStat (str "passes completed") = true ∧
    percentTokens (str "Passes Completed 81% 9% 77%") = str "81%" :: ([str "9%"] ++ [str "77%"]) ∧
    parseStatistics (str "Shots 1 2\nPasses Completed 81% 9% 77%") =
      [mkStat (str "shots") (str "1") (str "2"),
       mkStat (str "passes completed") (str "81%") (str "77%")] :=
  ⟨by decide, by decide, by decide, by decide,
    (parseStatistics_percent_first_last (str "Shots 1 2\nPasses Completed 81% 9% 77%")
      (str "Passes Completed 81% 9% 77%") (str "passes completed") (str "passes completed")
      (str "81%") (str "77%") [str "Shots 1 2"] [] [str "9%"]
      (by decide) (by decide) (by decide) (by decide)).2.1.trans (by decide)⟩

/-! ## `parseStatistics`: the second value taken from another line -/

/-- Claim C2, as stated, fails: in the text of two identical lines
`Possession 54%` each line is a percentage line with one percentage and the
other line has a percentage too, yet no record is emitted. -/
theorem percent_single_identical_lines :
    splitLines (str "Possession 54%\nPossession 54%") =
      [str "Possession 54%", str "Possession 54%"] ∧
    matchedEntry (str "Possession 54%") = some (str "possession", str "possession") ∧
    isPercentStat (str "possession") = true ∧
    percentTokens (str "Possession 54%") = [str "54%"] ∧
    parseStatistics (str "Possession 54%\nPossession 54%") = [] := by
  decide

/-- Claim C2, amended. A percentage line with exactly one percentage
contributes a record if and only if some line whose text differs from its own
holds a percentage; the record pairs the line's percentage, as home value,
with the first percentage of the first such line in line order, as away
value.  Lines with the same text as the label line are passed over. -/
theorem parseStatistics_percent_single (ocrText line key statName p : Str)
    (pre post : List Str)
    (hline : splitLines ocrText = pre ++ line :: post)
    (hentry : matchedEntry line = some (key, statName))
    (hmode : isPercentStat key = true)
    (hone : percentTokens line = [p]) :
    parseStatistics ocrText =
      parseLoop (splitLines ocrText) [] pre ++ parseLine (splitLines ocrText) line ++
        parseLoop (splitLines ocrText) [] post ∧
    (parseLine (splitLines ocrText) line ≠ [] ↔
      ∃ other ∈ splitLines ocrText, other ≠ line ∧ percentTokens other ≠ []) ∧
    (∀ (before after more : List Str) (other p2 : Str),
      splitLines ocrText = before ++ other :: after →
      (∀ l ∈ before, l = line ∨ percentTokens l = []) →
      other ≠ line → percentTokens other = p2 :: more →
      parseLine (splitLines ocrText) line = [mkStat statName p p2]) := by
  refine ⟨parseStatistics_at_line hline, ?_, ?_⟩
  · rw [parseLine_percent hentry hmode]
    exact percentBranch_one_ne_nil_iff hone
  · intro before after more other p2 hlines hbefore hne hother
    rw [parseLine_percent hentry hmode]
    exact percentBranch_one_found hone hlines hbefore hne hother

/-- The text `Possession 54%`, `Shots`, `Possession 54%`, `46% 45%`: the first
line is paired with the `46%` of the fourth line. -/
theorem parseStatistics_percent_single_witness :
    splitLines (str "Possession 54%\nShots\nPossession 54%\n46% 45%") =
      [] ++ str "Possession 54%" :: [str "Shots", str "Possession 54%", str "46% 45%"] ∧
    matchedEntry (str "Possession 54%") = some (str "possession", str "possession") ∧
    isPercentStat (str "possession") = true ∧
    percentTokens (str "Possession 54%") = [str "54%"] ∧
    parseLine (splitLines (str "Possession 54%\nShots\nPossession 54%\n46% 45%"))
      (str "Possession 54%") = [mkStat (str "possession") (str "54%") (str "46%")] :=
  ⟨by decide, by decide, by decide, by decide,
    (parseStatistics_percent_single (str "Possession 54%\nShots\nPossession 54%\n46% 45%")
      (str "Possession 54%") (str "possession") (str "possession") (str "54%")
      [] [str "Shots", str "Possession 54%", str "46% 45%"]
      (by decide) (by decide) (by decide) (by decide)).2.2
      [str "Possession 54%", str "Shots", str "Possession 54%"] [] [str "45%"]
      (str "46% 45%") (str "46%") (by decide) (by decide) (by decide) (by decide)⟩

/-- Claim C4, as stated, fails: for the lines `Fouls 7` and `12345 6` the
second line holds the number `6` of at most 4 characters, yet no record is
emitted, because only the first number of that line is looked at.  For two
identical lines `Fouls 7` no record is emitted either, each line being passed
over in the search of the other. -/
theorem numeric_single_long_first_number :
    splitLines (str "Fouls 7\n12345 6") = [str "Fouls 7", str "12345 6"] ∧
    matchedEntry (str "Fouls 7") = some (str "fouls", str "fouls") ∧
    isPercentStat (str "fouls") = false ∧
    shortNumbers (str "Fouls 7") = [str "7"] ∧
    numberTokens (str "12345 6") = [str "12345", str "6"] ∧
    shortNumbers (str "12345 6") = [str "6"] ∧
    parseStatistics (str "Fouls 7\n12345 6") = [] ∧
    splitLines (str "Fouls 7\nFouls 7") = [str "Fouls 7", str "Fouls 7"] ∧
    parseStatistics (str "Fouls 7\nFouls 7") = [] := by
  decide

/-- Claim C4, amended. A numeric line with exactly one number of at most 4
characters contributes a record if and only if some line whose text differs
from its own has, as its first number, one of at most 4 characters; the record
pairs the line's number, as home value, with the first number of the first
such line in line order, as away value.  Of every other line only the first
number is looked at. -/
theorem parseStatistics_numeric_single (ocrText line key statName a : Str)
    (pre post : List Str)
    (hline : splitLines ocrText = pre ++ line :: post)
    (hentry : matchedEntry line = some (key, statName))
    (hmode : isPercentStat key = false)
    (hone : shortNumbers line = [a]) :
    parseStatistics ocrText =
      parseLoop (splitLines ocrText) [] pre ++ parseLine (splitLines ocrText) line ++
        parseLoop (splitLines ocrText) [] post ∧
    (parseLine (splitLines ocrText) line ≠ [] ↔
      ∃ other ∈ splitLines ocrText, other ≠ line ∧
        ∃ n2 more, numberTokens other = n2 :: more ∧ n2.length ≤ 4) ∧
    (∀ (before after more : List Str) (other n2 : Str),
      splitLines ocrText = before ++ other :: after →
      (∀ l ∈ before, l = line ∨ ∀ n rest, numberTokens l = n :: rest → 4 < n.length) →
      other ≠ line → numberTokens other = n2 :: more → n2.length ≤ 4 →
      parseLine (splitLines ocrText) line = [mkStat statName a n2]) := by
  refine ⟨parseStatistics_at_line hline, ?_, ?_⟩
  · rw [parseLine_number hentry hmode, numberBranch_one_ne_nil_iff hone]
    constructor
    · rintro ⟨other, hmem, hne, n, hn, hlen⟩
      refine ⟨other, hmem, hne, n, (numberTokens other).tail, ?_, hlen⟩
      cases hts : numberTokens other with
      | nil => simp [hts] at hn
      | cons t ts =>
        simp only [hts, List.head?_cons, Option.mem_def, Option.some.injEq] at hn
        simp [hn]
    · rintro ⟨other, hmem, hne, n, more, hts, hlen⟩
      exact ⟨other, hmem, hne, n, by simp [hts], hlen⟩
  · intro before after more other n2 hlines hbefore hne hother hshort
    rw [parseLine_number hentry hmode]
    refine numberBranch_one_found hone hlines ?_ hne hother hshort
    intro l hl
    rcases hbefore l hl with h | h
    · exact Or.inl h
    · right
      intro n hn
      cases hts : numberTokens l with
      | nil => simp [hts] at hn
      | cons t ts =>
        simp only [hts, List.head?_cons, Option.mem_def, Option.some.injEq] at hn
        subst hn
        exact h t ts hts

/-- The text `Fouls 7`, `12345 6`, `8 9`: the second line is passed over, its
first number being too long, and the record is (fouls, 7, 8). -/
theorem parseStatistics_numeric_single_witness :
    splitLines (str "Fouls 7\n12345 6\n8 9") =
      [] ++ str "Fouls 7" :: [str "12345 6", str "8 9"] ∧
    matchedEntry (str "Fouls 7") = some (str "fouls", str "fouls") ∧
    isPercentStat (str "fouls") = false ∧
    shortNumbers (str "Fouls 7") = [str "7"] ∧
    parseLine (splitLines (str "Fouls 7\n12345 6\n8 9")) (str "Fouls 7") =
      [mkStat (str "fouls") (str "7") (str "8")] :=
  ⟨by decide, by decide, by decide, by decide,
    (parseStatistics_numeric_single (str "Fouls 7\n12345 6\n8 9")
      (str "Fouls 7") (str "fouls") (str "fouls") (str "7") [] [str "12345 6", str "8 9"]
      (by decide) (by decide) (by decide) (by decide)).2.2
      [str "Fouls 7", str "12345 6"] [] [str "9"] (str "8 9") (str "8") (by decide)
      (by
        intro l hl
        simp only [List.mem_cons, List.mem_singleton, List.not_mem_nil, or_false] at hl
        rcases hl with rfl | rfl
        · exact Or.inl rfl
        · right
          intro n rest hn
          have h5 : numberTokens (str "12345 6") = [str "12345", str "6"] := by decide
          rw [h5] at hn
          simp only [List.cons.injEq] at hn
          rw [← hn.1]
          decide)
      (by decide) (by decide) (by decide)⟩

/-! ## `parseStatistics`: long numbers are never values -/

/-- Claim C5. In every record emitted for a numeric statistic both values have
at most 4 characters: this holds for every record of the result whose name is
not a percentage name, and for every record a numeric line contributes; a
numeric line all of whose numbers are longer than 4 characters contributes no
record. -/
theorem parseStatistics_numeric_values_short (ocrText : Str) :
    (∀ r ∈ parseStatistics ocrText, isPercentStat r.statName = false →
      r.homeValue.length ≤ 4 ∧ r.awayValue.length ≤ 4) ∧
    (∀ line key statName, line ∈ splitLines ocrText →
      matchedEntry line = some (key, statName) → isPercentStat key = false →
      (∀ r ∈ parseLine (splitLines ocrText) line,
        r.statName = statName ∧ r.homeValue.length ≤ 4 ∧ r.awayValue.length ≤ 4) ∧
      ((∀ t ∈ numberTokens line, 4 < t.length) → parseLine (splitLines ocrText) line = [])) := by
  constructor
  · intro r hr hname
    obtain ⟨line, -, hrl⟩ := mem_parseLoop hr
    obtain ⟨key, hentry, hlen⟩ := mem_parseLine hrl
    apply hlen
    rw [← statMappings_percent_name _ (matchedEntry_mem hentry)]
    exact hname
  · intro line key statName _ hentry hmode
    rw [parseLine_number hentry hmode]
    refine ⟨fun r hr => mem_numberBranch hr, ?_⟩
    intro hlong
    have hnil : shortNumbers line = [] := by
      simp only [shortNumbers, List.filter_eq_nil_iff, decide_eq_true_eq]
      intro t ht
      have := hlong t ht
      omega
    simp [numberBranch, hnil]

/-! ## `cleanNumericValue` -/

/-- Claim C6, as stated, fails: the capital letter `L` is not replaced. -/
theorem cleanNumericValue_capital_L :
    cleanNumericValue (str "L") = str "L" ∧ cleanNumericValue (str "L") ≠ str "1" := by
  decide

/-- Claim C6, amended. The result has the length of the input; every `o` and
`O` is replaced by `0`, every `l` and `I` by `1`, and every other character,
the capital `L` among them, is unchanged; `1O` becomes `10`. -/
theorem cleanNumericValue_substitution (value : Str) :
    cleanNumericValue value =
      value.map (fun c =>
        if c = Char.toNat 'o' ∨ c = Char.toNat 'O' then Char.toNat '0'
        else if c = Char.toNat 'l' ∨ c = Char.toNat 'I' then Char.toNat '1'
        else c) ∧
    (cleanNumericValue value).length = value.length ∧
    cleanNumericValue (str "1O") = str "10" ∧
    cleanNumericValue (str "oOlIL") = str "0011L" :=
  ⟨cleanNumericValue_eq_map value, cleanNumericValue_length value, by decide, by decide⟩

/-- Claim C7. Cleaning a value twice gives the same as cleaning it once. -/
theorem cleanNumericValue_idempotent (x : Str) :
    cleanNumericValue (cleanNumericValue x) = cleanNumericValue x := by
  rw [cleanNumericValue_eq_map (cleanNumericValue x), cleanNumericValue_eq_map x,
    List.map_map]
  apply List.map_congr_left
  intro c _
  simp only [Function.comp, Char.reduceToNat]
  split_ifs <;> omega

/-! ## `extractTeamNames` -/

/-- Claim C8. Neither returned name is a header word, compared without regard
to case: upper-cased it is none of `MATCH`, `STATS`, `STATISTIC`,
`STATISTICS`, so it is none of `Match`, `Stats`, `Statistic`, `Statistics`
either. -/
theorem extractTeamNames_no_header_word (lines : List Str) :
    (extractTeamNames lines).1.map toupper ∉ headerWords.map (List.map toupper) ∧
    (extractTeamNames lines).2.map toupper ∉ headerWords.map (List.map toupper) ∧
    (extractTeamNames lines).1 ∉
      [str "Match", str "Stats", str "Statistic", str "Statistics"] ∧
    (extractTeamNames lines).2 ∉
      [str "Match", str "Stats", str "Statistic", str "Statistics"] := by
  have hup : headerWords.map (List.map toupper) = headerWords := by decide
  have key : (extractTeamNames lines).1.map toupper ∉ headerWords ∧
      (extractTeamNames lines).2.map toupper ∉ headerWords := by
    rcases extractTeamNames_cases lines with ⟨-, h⟩ | ⟨line, -, t1, t2, hc, h⟩
    · rw [h]
      decide
    · obtain ⟨h1, h2, hw1, hw2, -⟩ := teamCandidate_some hc
      rw [h]
      simp only [map_toupper_properCase h1.2.2, map_toupper_properCase h2.2.2]
      exact ⟨hw1, hw2⟩
  have htitle : ∀ name : Str, name.map toupper ∉ headerWords →
      name ∉ [str "Match", str "Stats", str "Statistic", str "Statistics"] := by
    intro name hname hmem
    apply hname
    simp only [List.mem_cons, List.mem_singleton, List.not_mem_nil, or_false] at hmem
    rcases hmem with rfl | rfl | rfl | rfl <;> decide
  rw [hup]
  exact ⟨key.1, key.2, htitle _ key.1, htitle _ key.2⟩

/-- Claim C9. The result is either the empty pair or a pair of two non-empty
names that differ, also when compared without regard to case. -/
theorem extractTeamNames_distinct (lines : List Str) :
    extractTeamNames lines = ([], []) ∨
      ((extractTeamNames lines).1 ≠ [] ∧ (extractTeamNames lines).2 ≠ [] ∧
        (extractTeamNames lines).1 ≠ (extractTeamNames lines).2 ∧
        (extractTeamNames lines).1.map toupper ≠ (extractTeamNames lines).2.map toupper) := by
  rcases extractTeamNames_cases lines with ⟨-, h⟩ | ⟨line, -, t1, t2, hc, h⟩
  · exact Or.inl h
  · right
    obtain ⟨h1, h2, -, -, hne⟩ := teamCandidate_some hc
    have hup : (properCase t1).map toupper ≠ (properCase t2).map toupper := by
      rw [map_toupper_properCase h1.2.2, map_toupper_properCase h2.2.2]
      exact hne
    have hl1 := properCase_length t1
    have hl2 := properCase_length t2
    rw [h]
    refine ⟨?_, ?_, ?_, hup⟩
    · intro h0
      have h4 := h1.1
      have h5 : (properCase t1).length = 0 := by rw [show properCase t1 = [] from h0]; rfl
      omega
    · intro h0
      have h4 := h2.1
      have h5 : (properCase t2).length = 0 := by rw [show properCase t2 = [] from h0]; rfl
      omega
    · intro heq
      exact hup (congrArg (List.map toupper) heq)

/-- Claim C10. The header lines `ARSENAL`, `PREMIER LEAGUE STATS`,
`CHELSEA FC` give the empty pair: no line of them yields an accepted pair (the
pattern matches the second line only, as PREMIER and STATS, which is
rejected), and names are never combined across lines: when no single line
among the first 10 yields an accepted pair the result is empty. -/
theorem extractTeamNames_separate_lines :
    extractTeamNames [str "ARSENAL", str "PREMIER LEAGUE STATS", str "CHELSEA FC"] = ([], []) ∧
    (∀ line ∈ [str "ARSENAL", str "PREMIER LEAGUE STATS", str "CHELSEA FC"],
      teamCandidate line = none) ∧
    regexSearch twoTeamsPatternAt none (str "ARSENAL") = none ∧
    regexSearch twoTeamsPatternAt none (str "PREMIER LEAGUE STATS") =
      some (str "PREMIER", str "STATS") ∧
    regexSearch twoTeamsPatternAt none (str "CHELSEA FC") = none ∧
    (∀ lines : List Str, (∀ line ∈ lines.take 10, teamCandidate line = none) →
      extractTeamNames lines = ([], [])) := by
  refine ⟨by decide, by decide, by decide, by decide, by decide, ?_⟩
  intro lines hnone
  rcases extractTeamNames_cases lines with ⟨-, h⟩ | ⟨line, hmem, t1, t2, hc, -⟩
  · exact h
  · rw [hnone line hmem] at hc
    exact absurd hc (by simp)

/-! ## `extractTeamNames`: which line decides, and the case of the names -/

theorem tolower_of_isUpper_isLower {c : Nat} (h : isUpper c = true) : isLower (tolower c) = true := by
  rw [isUpper_iff] at h
  rw [isLower_iff]
  simp only [tolower, isUpper_iff, Char.reduceToNat]
  rw [if_pos h]
  omega

/-- A title-cased token: a capital letter followed by small letters. -/
theorem properCase_shape {t : Str} (h : IsTeamToken t) :
    ∃ c cs, properCase t = c :: cs ∧ isUpper c = true ∧ ∀ d ∈ cs, isLower d = true := by
  obtain ⟨h4, -, hup⟩ := h
  cases t with
  | nil => simp at h4
  | cons a as =>
    refine ⟨a, as.map tolower, ?_, hup a (List.mem_cons_self _ _), ?_⟩
    · simp only [properCase, List.map_cons]
      rw [toupper_tolower_of_isUpper (hup a (List.mem_cons_self _ _))]
    · intro d hd
      obtain ⟨e, he, rfl⟩ := List.mem_map.1 hd
      exact tolower_of_isUpper_isLower (hup e (List.mem_cons_of_mem _ he))

theorem extractTeamNames_take (lines : List Str) :
    extractTeamNames lines = extractTeamNames (lines.take 10) := by
  simp only [extractTeamNames, List.take_take, Nat.min_self]

theorem findSome?_teamCandidate_first {ls pre post : List Str} {line : Str}
    (h : ls = pre ++ line :: post) (hpre : ∀ l ∈ pre, teamCandidate l = none) :
    ls.findSome? teamCandidate = teamCandidate line ∨ teamCandidate line = none := by
  cases hc : teamCandidate line with
  | none => exact Or.inr rfl
  | some r =>
    left
    rw [h, List.findSome?_append, List.findSome?_eq_none_iff.2 hpre]
    simp [hc]

/-- Claim C12. The result depends on the first 10 lines only and is decided by
the first of them that yields an accepted pair: it equals the result on that
line alone; when none of the first 10 lines yields an accepted pair it is the
empty pair; whatever follows the tenth line changes nothing. -/
theorem extractTeamNames_first_accepted (lines : List Str) :
    extractTeamNames lines = extractTeamNames (lines.take 10) ∧
    (∀ (pre post : List Str) (line : Str), lines.take 10 = pre ++ line :: post →
      (∀ l ∈ pre, teamCandidate l = none) → teamCandidate line ≠ none →
      extractTeamNames lines = extractTeamNames [line]) ∧
    ((∀ l ∈ lines.take 10, teamCandidate l = none) → extractTeamNames lines = ([], [])) ∧
    (∀ later : List Str, lines.length = 10 →
      extractTeamNames (lines ++ later) = extractTeamNames lines) := by
  refine ⟨extractTeamNames_take lines, ?_, ?_, ?_⟩
  · intro pre post line hsplit hpre hacc
    rcases findSome?_teamCandidate_first hsplit hpre with h | h
    · have h1 : ([line].take 10).findSome? teamCandidate = teamCandidate line := by
        cases hc : teamCandidate line <;> simp [List.findSome?_cons, hc]
      simp only [extractTeamNames, h, h1]
    · exact absurd h hacc
  · intro hnone
    rcases extractTeamNames_cases lines with ⟨-, h⟩ | ⟨line, hmem, t1, t2, hc, -⟩
    · exact h
    · rw [hnone line hmem] at hc
      exact absurd hc (by simp)
  · intro later hlen
    rw [extractTeamNames_take (lines ++ later), extractTeamNames_take lines,
      List.take_append_of_le_length (by omega)]

/-- Claim C13. Each returned name is empty or in title case: 4 to 15 letters,
the first a capital `A`-`Z` and all others small letters `a`-`z`, in whatever
case the header was written; `ARSENAL CHELSEA` and `arsenal chelsea` both give
(Arsenal, Chelsea). -/
theorem extractTeamNames_title_case (lines : List Str) :
    (∀ name, name = (extractTeamNames lines).1 ∨ name = (extractTeamNames lines).2 →
      name = [] ∨
        (4 ≤ name.length ∧ name.length ≤ 15 ∧
          ∃ c cs, name = c :: cs ∧ isUpper c = true ∧ ∀ d ∈ cs, isLower d = true)) ∧
    extractTeamNames [str "ARSENAL CHELSEA"] = (str "Arsenal", str "Chelsea") ∧
    extractTeamNames [str "arsenal chelsea"] = (str "Arsenal", str "Chelsea") ∧
    extractTeamNames [str "ArSeNaL v cHELSEa"] = (str "Arsenal", str "Chelsea") ∧
    properCase (str "ARSENAL") = str "Arsenal" := by
  refine ⟨?_, by decide, by decide, by decide, by decide⟩
  intro name hname
  rcases extractTeamNames_cases lines with ⟨-, h⟩ | ⟨line, -, t1, t2, hc, h⟩
  · left
    rw [h] at hname
    rcases hname with rfl | rfl <;> rfl
  · right
    obtain ⟨h1, h2, -⟩ := teamCandidate_some hc
    rw [h] at hname
    rcases hname with rfl | rfl
    · have hl := properCase_length t1
      exact ⟨by show 4 ≤ (properCase t1).length; rw [hl]; exact h1.1,
        by show (properCase t1).length ≤ 15; rw [hl]; exact h1.2.1, properCase_shape h1⟩
    · have hl := properCase_length t2
      exact ⟨by show 4 ≤ (properCase t2).length; rw [hl]; exact h2.1,
        by show (properCase t2).length ≤ 15; rw [hl]; exact h2.2.1, properCase_shape h2⟩

/-! ## `parseStatistics`: one record per line at most -/

theorem parseLoop_eq_flatMap (lines : List Str) :
    ∀ todo : List Str, parseLoop lines [] todo = todo.flatMap (parseLine lines)
  | [] => by simp [parseLoop]
  | l :: ls => by
    rw [parseLoop_cons, parseLoop_eq_flatMap lines ls]
    simp [List.flatMap_cons]

theorem length_toList_le {α : Type} (o : Option α) : o.toList.length ≤ 1 := by
  cases o <;> simp [Option.toList]

theorem parseLine_length_le (lines : List Str) (line : Str) :
    (parseLine lines line).length ≤ 1 := by
  simp only [parseLine]
  split
  · split_ifs
    · simp only [percentBranch]
      split_ifs
      · simp
      · exact length_toList_le _
      · simp
    · simp only [numberBranch]
      split_ifs
      · simp
      · exact length_toList_le _
      · simp
  · simp

theorem parseLoop_length_le (lines : List Str) :
    ∀ todo : List Str, (parseLoop lines [] todo).length ≤ todo.length
  | [] => by simp [parseLoop]
  | l :: ls => by
    have h1 := parseLine_length_le lines l
    have h2 := parseLoop_length_le lines ls
    rw [parseLoop_cons, List.length_append, List.length_cons]
    omega

/-- Claim C15. The result is the concatenation, in line order, of what each
line contributes, and a line contributes at most one record; so there are at
most as many records as non-empty lines, and a label repeated on two lines
gives two records in the order of the lines, not merged. -/
theorem parseStatistics_per_line (ocrText : Str) :
    parseStatistics ocrText =
      (splitLines ocrText).flatMap (parseLine (splitLines ocrText)) ∧
    (∀ line, (parseLine (splitLines ocrText) line).length ≤ 1) ∧
    (parseStatistics ocrText).length ≤ (splitLines ocrText).length ∧
    parseStatistics (str "Shots 12 9\nShots 3 4") =
      [mkStat (str "shots") (str "12") (str "9"), mkStat (str "shots") (str "3") (str "4")] :=
  ⟨parseLoop_eq_flatMap _ _, parseLine_length_le _, parseLoop_length_le _ _, by decide⟩

theorem percentBranch_none (lines : List Str) (line statName : Str)
    (h : percentTokens line = []) : percentBranch lines line statName = [] := by
  simp [percentBranch, h]

/-- Claim C18. A percentage line without any percentage contributes no
record, whatever numbers it holds and whatever the other lines hold; the text
`Possession 54 46` gives the empty list. -/
theorem parseStatistics_percent_no_token (ocrText line key statName : Str)
    (pre post : List Str)
    (hline : splitLines ocrText = pre ++ line :: post)
    (hentry : matchedEntry line = some (key, statName))
    (hmode : isPercentStat key = true)
    (hnone : percentTokens line = []) :
    parseLine (splitLines ocrText) line = [] ∧
    parseStatistics ocrText =
      parseLoop (splitLines ocrText) [] pre ++ parseLoop (splitLines ocrText) [] post ∧
    parseStatistics (str "Possession 54 46") = [] := by
  have hrec : parseLine (splitLines ocrText) line = [] := by
    rw [parseLine_percent hentry hmode]
    exact percentBranch_none _ line statName hnone
  refine ⟨hrec, ?_, by decide⟩
  rw [parseStatistics_at_line hline, hrec]
  simp

/-- The line `Possession 54 46` between two lines with percentages: it holds
the numbers 54 and 46 and still gives no record. -/
theorem parseStatistics_percent_no_token_witness :
    splitLines (str "Tackles Won 80% 75%\nPossession 54 46\n61% 39%") =
      [str "Tackles Won 80% 75%"] ++ str "Possession 54 46" :: [str "61% 39%"] ∧
    matchedEntry (str "Possession 54 46") = some (str "possession", str "possession") ∧
    isPercentStat (str "possession") = true ∧
    percentTokens (str "Possession 54 46") = [] ∧
    numberTokens (str "Possession 54 46") = [str "54", str "46"] ∧
    parseStatistics (str "Tackles Won 80% 75%\nPossession 54 46\n61% 39%") =
      [mkStat (str "tackles won") (str "80%") (str "75%")] :=
  ⟨by decide, by decide, by decide, by decide, by decide,
    (parseStatistics_percent_no_token (str "Tackles Won 80% 75%\nPossession 54 46\n61% 39%")
      (str "Possession 54 46") (str "possession") (str "possession")
      [str "Tackles Won 80% 75%"] [str "61% 39%"]
      (by decide) (by decide) (by decide) (by decide)).2.1.trans (by decide)⟩

/-! ## `parseStatistics`: the values are the matched tokens -/

theorem getD_mem_of_lt {l : List Str} {i : Nat} (h : i < l.length) : l.getD i [] ∈ l := by
  rw [List.getD_eq_getElem?_getD, List.getElem?_eq_getElem h]
  exact List.getElem_mem h

theorem mem_numberBranch_tokens {lines : List Str} {line statName : Str} {r : MatchStatistic}
    (h : r ∈ numberBranch lines line statName) :
    r.homeValue ∈ numberTokens line ∧
      ∃ other, (other = line ∨ other ∈ lines) ∧ r.awayValue ∈ numberTokens other := by
  have hsub : ∀ i, i < (shortNumbers line).length →
      cleanNumericValue ((shortNumbers line).getD i []) ∈ numberTokens line := by
    intro i hi
    have hm := (mem_shortNumbers (getD_mem_of_lt hi)).1
    rw [cleanNumericValue_numberToken hm]
    exact hm
  simp only [numberBranch] at h
  split_ifs at h with h2 h1
  · simp only [List.mem_singleton] at h
    subst h
    exact ⟨hsub 0 (by omega), line, Or.inl rfl, hsub _ (by omega)⟩
  · rw [Option.mem_toList] at h
    obtain ⟨other, hmem, hf⟩ := List.exists_of_findSome?_eq_some h
    split_ifs at hf with hne
    cases hh : (numberTokens other).head? with
    | none => simp [hh] at hf
    | some n =>
      simp only [hh] at hf
      split_ifs at hf with hlen
      simp only [Option.some.injEq] at hf
      subst hf
      have hn : n ∈ numberTokens other := List.mem_of_mem_head? hh
      refine ⟨hsub 0 (by omega), other, Or.inr hmem, ?_⟩
      simp only [mkStat]
      rw [cleanNumericValue_numberToken hn]
      exact hn
  · simp at h

theorem mem_percentBranch_tokens {lines : List Str} {line statName : Str} {r : MatchStatistic}
    (h : r ∈ percentBranch lines line statName) :
    r.homeValue ∈ percentTokens line ∧
      ∃ other, (other = line ∨ other ∈ lines) ∧ r.awayValue ∈ percentTokens other := by
  have hsub : ∀ i, i < (percentTokens line).length →
      cleanNumericValue ((percentTokens line).getD i []) ∈ percentTokens line := by
    intro i hi
    have hm := getD_mem_of_lt hi
    rw [cleanNumericValue_percentToken hm]
    exact hm
  simp only [percentBranch] at h
  split_ifs at h with h2 h1
  · simp only [List.mem_singleton] at h
    subst h
    exact ⟨hsub 0 (by omega), line, Or.inl rfl, hsub _ (by omega)⟩
  · rw [Option.mem_toList] at h
    obtain ⟨other, hmem, hf⟩ := List.exists_of_findSome?_eq_some h
    split_ifs at hf with hne
    cases hh : (percentTokens other).head? with
    | none => simp [hh] at hf
    | some n =>
      simp only [hh, Option.map_some', Option.some.injEq] at hf
      subst hf
      have hn : n ∈ percentTokens other := List.mem_of_mem_head? hh
      refine ⟨hsub 0 (by omega), other, Or.inr hmem, ?_⟩
      simp only [mkStat]
      rw [cleanNumericValue_percentToken hn]
      exact hn
  · simp at h

/-- Both values of a record are tokens as matched: numbers, or percentages. -/
theorem mem_parseLine_tokens {lines : List Str} {line : Str} {r : MatchStatistic}
    (hl : line ∈ lines) (h : r ∈ parseLine lines line) :
    ∃ other ∈ lines,
      (r.homeValue ∈ numberTokens line ∧ r.awayValue ∈ numberTokens other) ∨
      (r.homeValue ∈ percentTokens line ∧ r.awayValue ∈ percentTokens other) := by
  simp only [parseLine] at h
  cases hentry : matchedEntry line with
  | none => simp [hentry] at h
  | some e =>
    obtain ⟨key, statName⟩ := e
    simp only [hentry] at h
    split_ifs at h with hmode
    · obtain ⟨h1, other, ho, h2⟩ := mem_percentBranch_tokens h
      refine ⟨other, ?_, Or.inr ⟨h1, h2⟩⟩
      rcases ho with rfl | ho
      · exact hl
      · exact ho
    · obtain ⟨h1, other, ho, h2⟩ := mem_numberBranch_tokens h
      refine ⟨other, ?_, Or.inl ⟨h1, h2⟩⟩
      rcases ho with rfl | ho
      · exact hl
      · exact ho

theorem token_chars {line t : Str} (h : t ∈ numberTokens line ∨ t ∈ percentTokens line) :
    ∀ c ∈ t, isDigit c = true ∨ c = Char.toNat '.' ∨ c = Char.toNat '%' := by
  intro c hc
  rcases h with h | h
  · rcases numberTokens_chars h c hc with hd | hd
    · exact Or.inl hd
    · exact Or.inr (Or.inl hd)
  · obtain ⟨g, rfl, -, hg⟩ := percentTokens_shape h
    rcases List.mem_append.1 hc with hc | hc
    · exact Or.inl (hg c hc)
    · have : c = Char.toNat '%' := by simpa [str] using hc
      exact Or.inr (Or.inr this)

/-- Claim C20. Both values of every record are tokens exactly as matched on a
line of the text, two numbers or two percentages (digits with their `%`);
they consist of digits, `.` and `%` only, so they hold neither `|` nor a
newline; and `cleanNumericValue` changes no token of either kind. -/
theorem parseStatistics_values_raw (ocrText : Str) :
    (∀ r ∈ parseStatistics ocrText,
      ∃ line ∈ splitLines ocrText, ∃ other ∈ splitLines ocrText,
        (r.homeValue ∈ numberTokens line ∧ r.awayValue ∈ numberTokens other) ∨
        (r.homeValue ∈ percentTokens line ∧ r.awayValue ∈ percentTokens other)) ∧
    (∀ r ∈ parseStatistics ocrText, ∀ c ∈ r.homeValue ++ r.awayValue,
      (isDigit c = true ∨ c = Char.toNat '.' ∨ c = Char.toNat '%') ∧
        c ≠ Char.toNat '|' ∧ c ≠ Char.toNat '\n') ∧
    (∀ line t : Str, t ∈ numberTokens line ∨ t ∈ percentTokens line →
      cleanNumericValue t = t) := by
  have hraw : ∀ r ∈ parseStatistics ocrText,
      ∃ line ∈ splitLines ocrText, ∃ other ∈ splitLines ocrText,
        (r.homeValue ∈ numberTokens line ∧ r.awayValue ∈ numberTokens other) ∨
        (r.homeValue ∈ percentTokens line ∧ r.awayValue ∈ percentTokens other) := by
    intro r hr
    obtain ⟨line, hl, hrl⟩ := mem_parseLoop hr
    obtain ⟨other, ho, h⟩ := mem_parseLine_tokens hl hrl
    exact ⟨line, hl, other, ho, h⟩
  refine ⟨hraw, ?_, ?_⟩
  · intro r hr c hc
    obtain ⟨line, -, other, -, h⟩ := hraw r hr
    have hclass : isDigit c = true ∨ c = Char.toNat '.' ∨ c = Char.toNat '%' := by
      rcases List.mem_append.1 hc with hc | hc
      · rcases h with h | h
        · exact token_chars (Or.inl h.1) c hc
        · exact token_chars (Or.inr h.1) c hc
      · rcases h with h | h
        · exact token_chars (Or.inl h.2) c hc
        · exact token_chars (Or.inr h.2) c hc
    refine ⟨hclass, ?_, ?_⟩
    · simp only [isDigit_iff, Char.reduceToNat] at hclass ⊢
      omega
    · simp only [isDigit_iff, Char.reduceToNat] at hclass ⊢
      omega
  · intro line t ht
    exact cleanNumericValue_of_numeric t (token_chars ht)

/-! ## `parseStatistics`: which entry a line matches -/

/-- The entries of `statMappings` stand in strictly increasing key order. -/
theorem statMappings_sorted :
    statMappings.Pairwise fun a b => strLess a.1 b.1 = true := by
  decide

/-- The map holds the entries of its initializer list, and no others. -/
theorem mem_statMappings_iff (e : Str × Str) : e ∈ statMappings ↔ e ∈ statMappingsInit := by
  have h1 : ∀ e ∈ statMappings, e ∈ statMappingsInit := by decide
  have h2 : ∀ e ∈ statMappingsInit, e ∈ statMappings := by decide
  exact ⟨h1 e, h2 e⟩

theorem matchedEntry_smallest {line : Str} {e : Str × Str} (h : matchedEntry line = some e) :
    e ∈ statMappings ∧ (strFind e.1 (line.map tolower)).isSome = true ∧
      ∀ e2 ∈ statMappings, (strFind e2.1 (line.map tolower)).isSome = true →
        e2 = e ∨ strLess e.1 e2.1 = true := by
  simp only [matchedEntry] at h
  obtain ⟨hP, as, bs, hsplit, has⟩ := List.find?_eq_some.1 h
  refine ⟨List.mem_of_find?_eq_some h, hP, ?_⟩
  intro e2 hmem hP2
  have hsorted := statMappings_sorted
  rw [hsplit] at hmem hsorted
  rcases List.mem_append.1 hmem with hm | hm
  · have := has e2 hm
    simp [hP2] at this
  · rcases List.mem_cons.1 hm with rfl | hm
    · exact Or.inl rfl
    · right
      have h2 := (List.pairwise_append.1 hsorted).2.1
      exact (List.pairwise_cons.1 h2).1 e2 hm

theorem matchedEntry_eq_none_iff (line : Str) :
    matchedEntry line = none ↔ ∀ e ∈ statMappings, strFind e.1 (line.map tolower) = none := by
  simp only [matchedEntry, List.find?_eq_none]
  constructor
  · intro h e he
    have := h e he
    cases hf : strFind e.1 (line.map tolower) with
    | none => rfl
    | some n => simp [hf] at this
  · intro h e he
    simp [h e he]

/-- Claim C19, as stated, fails: a line with `offside` and `possession` is not
always parsed in the numeric branch as offsides.  The line
`Corners offside possession 5 3` holds both and is parsed as corners, and the
line `Headers Won Offside Possession 54% 46%` holds both and is parsed in the
percentage branch as headers won: in each a key that stands before `offside`
in the order of the map occurs too. -/
theorem offside_possession_smaller_key :
    (strFind (str "offside") ((str "Corners offside possession 5 3").map tolower)).isSome = true ∧
    (strFind (str "possession")
      ((str "Corners offside possession 5 3").map tolower)).isSome = true ∧
    matchedEntry (str "Corners offside possession 5 3") = some (str "corners", str "corners") ∧
    parseStatistics (str "Corners offside possession 5 3") =
      [mkStat (str "corners") (str "5") (str "3")] ∧
    (strFind (str "offside")
      ((str "Headers Won Offside Possession 54% 46%").map tolower)).isSome = true ∧
    (strFind (str "possession")
      ((str "Headers Won Offside Possession 54% 46%").map tolower)).isSome = true ∧
    matchedEntry (str "Headers Won Offside Possession 54% 46%") =
      some (str "headers won", str "headers won") ∧
    isPercentStat (str "headers won") = true ∧
    parseStatistics (str "Headers Won Offside Possession 54% 46%") =
      [mkStat (str "headers won") (str "54%") (str "46%")] := by
  decide

/-- Claim C19, amended. The entry a line is parsed with is the one whose key is
the smallest, in the byte order of the `std::map`, among the keys that occur
in the lower-cased line, whatever the order of the initializer list; no entry
is matched exactly when no key occurs.  The line is parsed in the branch of
that key: the percentage branch when the key is one of the five percentage
keys, the numeric branch otherwise, and not at all when no key occurs.  A
line with `offside` and `possession` in which no key before `offside` occurs
is parsed in the numeric branch as offsides.  The text `Shots on target 5 3`
gives the one record (on target, 5, 3), although `shots` comes first in the
initializer list. -/
theorem matchedEntry_smallest_key (line : Str) :
    (∀ key statName, matchedEntry line = some (key, statName) →
      (key, statName) ∈ statMappingsInit ∧
      (strFind key (line.map tolower)).isSome = true ∧
      ∀ e ∈ statMappingsInit, (strFind e.1 (line.map tolower)).isSome = true →
        e.1 = key ∨ strLess key e.1 = true) ∧
    (matchedEntry line = none ↔
      ∀ e ∈ statMappingsInit, strFind e.1 (line.map tolower) = none) ∧
    (∀ key statName, matchedEntry line = some (key, statName) →
      ∀ lines, parseLine lines line =
        if isPercentStat key = true then percentBranch lines line statName
        else numberBranch lines line statName) ∧
    (matchedEntry line = none → ∀ lines, parseLine lines line = []) ∧
    ((strFind (str "offside") (line.map tolower)).isSome = true →
      (strFind (str "possession") (line.map tolower)).isSome = true →
      (∀ e ∈ statMappingsInit, strLess e.1 (str "offside") = true →
        strFind e.1 (line.map tolower) = none) →
      matchedEntry line = some (str "offside", str "offsides") ∧
      ∀ lines, parseLine lines line = numberBranch lines line (str "offsides")) ∧
    parseStatistics (str "Shots on target 5 3") = [mkStat (str "on target") (str "5") (str "3")] ∧
    (statMappingsInit.find? fun statPair =>
      (strFind statPair.1 ((str "Shots on target 5 3").map tolower)).isSome) =
        some (str "shots", str "shots") ∧
    parseStatistics (str "Offside 3 Possession 54% 46%") =
      [mkStat (str "offsides") (str "3") (str "46")] := by
  have hmin : ∀ key statName, matchedEntry line = some (key, statName) →
      (key, statName) ∈ statMappingsInit ∧
      (strFind key (line.map tolower)).isSome = true ∧
      ∀ e ∈ statMappingsInit, (strFind e.1 (line.map tolower)).isSome = true →
        e.1 = key ∨ strLess key e.1 = true := by
    intro key statName h
    obtain ⟨h1, h2, h3⟩ := matchedEntry_smallest h
    refine ⟨(mem_statMappings_iff _).1 h1, h2, ?_⟩
    intro e he hc
    rcases h3 e ((mem_statMappings_iff _).2 he) hc with rfl | hlt
    · exact Or.inl rfl
    · exact Or.inr hlt
  have hnone : matchedEntry line = none ↔
      ∀ e ∈ statMappingsInit, strFind e.1 (line.map tolower) = none := by
    rw [matchedEntry_eq_none_iff]
    exact ⟨fun h e he => h e ((mem_statMappings_iff _).2 he),
      fun h e he => h e ((mem_statMappings_iff _).1 he)⟩
  refine ⟨hmin, hnone, ?_, ?_, ?_, by decide, by decide, by decide⟩
  · intro key statName hentry lines
    simp only [parseLine, hentry]
  · intro hentry lines
    simp only [parseLine, hentry]
  intro hoff _ hsmall
  have hentry : matchedEntry line = some (str "offside", str "offsides") := by
    cases hm : matchedEntry line with
    | none =>
      have := hnone.1 hm (str "offside", str "offsides") (by decide)
      simp [this] at hoff
    | some e =>
      obtain ⟨key, statName⟩ := e
      obtain ⟨hmem, hc, hle⟩ := hmin key statName hm
      have hkey : key = str "offside" := by
        rcases hle (str "offside", str "offsides") (by decide) hoff with h | h
        · exact h.symm
        · have := hsmall (key, statName) hmem h
          simp [this] at hc
      subst hkey
      have hname : ∀ e ∈ statMappingsInit, e.1 = str "offside" → e.2 = str "offsides" := by
        decide
      have := hname _ hmem rfl
      simp only at this
      rw [this]
  exact ⟨hentry, fun lines => parseLine_number hentry (by decide)⟩

/-! ## Lemmas: greedy counts and runs -/

theorem greedyCounts_succ (lo hi : Nat) :
    greedyCounts lo (hi + 1) =
      if lo ≤ hi + 1 then (hi + 1) :: greedyCounts lo hi else greedyCounts lo hi := by
  simp only [greedyCounts]
  rw [List.range_succ, List.filter_append, List.reverse_append]
  by_cases h : lo ≤ hi + 1
  · simp [h, List.filter_cons]
  · simp [h, List.filter_cons]

theorem greedyCounts_top {lo hi : Nat} (h : lo ≤ hi) :
    ∃ L, greedyCounts lo hi = hi :: L ∧ ∀ k ∈ L, lo ≤ k ∧ k < hi := by
  cases hi with
  | zero =>
    have : lo = 0 := by omega
    subst this
    exact ⟨[], by decide, by simp⟩
  | succ n =>
    refine ⟨greedyCounts lo n, ?_, ?_⟩
    · rw [greedyCounts_succ, if_pos h]
    · intro k hk
      rw [mem_greedyCounts] at hk
      omega

theorem runLength_eq_length_iff (p : Nat → Bool) :
    ∀ s : Str, runLength p s = s.length ↔ ∀ c ∈ s, p c = true
  | [] => by simp [runLength]
  | a :: as => by
    have ih := runLength_eq_length_iff p as
    have hle := runLength_le_length p as
    simp only [runLength, List.length_cons, List.mem_cons, forall_eq_or_imp]
    by_cases ha : p a = true
    · simp only [ha, if_true, true_and]
      rw [← ih]
      omega
    · rw [if_neg ha]
      constructor
      · intro h; omega
      · intro h; exact absurd h.1 ha

theorem drop_runLength (p : Nat → Bool) :
    ∀ s : Str, s.drop (runLength p s) = s.dropWhile p
  | [] => by simp [runLength]
  | a :: as => by
    by_cases ha : p a = true
    · simp [runLength, ha, List.dropWhile_cons, drop_runLength p as]
    · simp [runLength, ha, List.dropWhile_cons]

/-! ## Lemmas: `splitLines` -/

theorem regexRemove_skip_all (matchAt : Option Nat → Str → Option Nat) :
    ∀ (s : Str) (skip : Nat) (prev : Option Nat), s.length ≤ skip →
      regexRemove matchAt skip prev s = []
  | [], _, _, _ => by simp [regexRemove]
  | c :: cs, 0, _, h => by simp at h
  | c :: cs, skip + 1, _, h => by
    simp only [regexRemove]
    exact regexRemove_skip_all matchAt cs skip (some c) (by simpa using h)

theorem rdropWhile_cons (p : Nat → Bool) (c : Nat) (cs : Str) :
    (c :: cs).rdropWhile p =
      if ∀ x ∈ c :: cs, p x = true then [] else c :: cs.rdropWhile p := by
  induction cs using List.reverseRecOn with
  | nil =>
    rw [List.rdropWhile_singleton]
    by_cases h : p c = true <;> simp [h]
  | append_singleton ds d ih =>
    rw [← List.cons_append, List.rdropWhile_concat, List.rdropWhile_concat, ih]
    by_cases hd : p d = true
    · have : (∀ x ∈ c :: (ds ++ [d]), p x = true) ↔ ∀ x ∈ c :: ds, p x = true := by
        simp only [List.mem_cons, List.mem_append, List.mem_singleton]
        constructor
        · intro h x hx
          rcases hx with hx | hx
          · exact h x (Or.inl hx)
          · exact h x (Or.inr (Or.inl hx))
        · intro h x hx
          rcases hx with hx | hx | hx
          · exact h x (Or.inl hx)
          · exact h x (Or.inr hx)
          · rcases hx with hx | hx
            · rw [hx]; exact hd
            · simp at hx
      simp only [hd, if_true, List.cons_append, this]
    · have : ¬ ∀ x ∈ c :: (ds ++ [d]), p x = true := by
        intro h
        exact hd (h d (by simp))
      have hd2 : p d = false := by simpa using hd
      simp only [hd2, Bool.false_eq_true, if_false, List.cons_append, if_neg this]

/-- Past the start of the line the pattern removes the whitespace that ends
the line, and nothing else. -/
theorem regexRemove_trim_inner :
    ∀ (s : Str) (q : Nat), regexRemove trimPatternAt 0 (some q) s = s.rdropWhile isSpace
  | [], q => by simp [regexRemove]
  | c :: cs, q => by
    have ih := regexRemove_trim_inner cs c
    rw [rdropWhile_cons]
    by_cases hall : ∀ x ∈ c :: cs, isSpace x = true
    · have hk : runLength isSpace (c :: cs) = cs.length + 1 := by
        rw [(runLength_eq_length_iff isSpace (c :: cs)).2 hall]
        rfl
      obtain ⟨L, hL, -⟩ := @greedyCounts_top 1 (cs.length + 1) (by omega)
      have hm : trimPatternAt (some q) (c :: cs) = some (cs.length + 1) := by
        simp only [trimPatternAt, hk, hL]
        simp
      rw [if_pos hall]
      simp only [regexRemove, hm]
      exact regexRemove_skip_all _ cs _ _ (by simp)
    · have hk : runLength isSpace (c :: cs) < cs.length + 1 := by
        have h1 := runLength_le_length isSpace (c :: cs)
        have h2 := (runLength_eq_length_iff isSpace (c :: cs)).not.2 hall
        simp only [List.length_cons] at h1 h2
        omega
      have hm : trimPatternAt (some q) (c :: cs) = none := by
        simp only [trimPatternAt]
        rw [if_neg (by simp), List.find?_eq_none]
        intro j hj
        rw [mem_greedyCounts] at hj
        simp only [List.isEmpty_eq_true, List.drop_eq_nil_iff, List.length_cons, not_le]
        omega
      rw [if_neg hall]
      simp only [regexRemove, hm, ih]

theorem regexRemove_trim_skip :
    ∀ (s : Str) (skip q : Nat),
      regexRemove trimPatternAt skip (some q) s = (s.drop skip).rdropWhile isSpace
  | [], skip, q => by simp [regexRemove]
  | c :: cs, 0, q => by simpa using regexRemove_trim_inner (c :: cs) q
  | c :: cs, skip + 1, q => by
    simp only [regexRemove, List.drop_succ_cons]
    exact regexRemove_trim_skip cs skip c

/-- The trimming pattern removes the whitespace at both ends of the line. -/
theorem trimLine_eq (line : Str) :
    trimLine line = (line.dropWhile isSpace).rdropWhile isSpace := by
  cases line with
  | nil => simp [trimLine, regexRemove]
  | cons c cs =>
    by_cases hc : isSpace c = true
    · have hm : trimPatternAt none (c :: cs) = some (runLength isSpace cs + 1) := by
        simp [trimPatternAt, runLength, hc]
      simp only [trimLine, regexRemove, hm, Nat.add_sub_cancel]
      rw [regexRemove_trim_skip, drop_runLength]
      simp [List.dropWhile_cons, hc]
    · have hm : trimPatternAt none (c :: cs) = none := by
        simp only [trimPatternAt, runLength, hc]
        simp [greedyCounts]
      have hall : ¬ ∀ x ∈ c :: cs, isSpace x = true := fun h => hc (h c (by simp))
      simp only [trimLine, regexRemove, hm]
      rw [regexRemove_trim_inner]
      have hd : (c :: cs).dropWhile isSpace = c :: cs := by
        simp [List.dropWhile_cons, hc]
      rw [hd, rdropWhile_cons, if_neg hall]

/-- The lines read by `getline` are the segments between the newlines, but
for a last segment that is empty. -/
theorem splitOn_getLines :
    ∀ text : Str, text.splitOn (Char.toNat '\n') = getLines text ∨
      text.splitOn (Char.toNat '\n') = getLines text ++ [[]]
  | [] => by
    right
    simp [getLines, List.splitOn_nil]
  | c :: cs => by
    have ih := splitOn_getLines cs
    have hne := List.splitOnP_ne_nil (fun x => x == Char.toNat '\n') cs
    simp only [List.splitOn] at ih ⊢
    rw [List.splitOnP_cons]
    by_cases hc : c = Char.toNat '\n'
    · have hb : (c == Char.toNat '\n') = true := by simp [hc]
      rw [if_pos hb]
      simp only [getLines]
      rw [if_pos hc]
      rcases ih with ih | ih
      · left; rw [ih]
      · right; rw [ih]; rfl
    · have hb : ¬ (c == Char.toNat '\n') = true := by
        intro h
        exact hc (by simpa using h)
      rw [if_neg hb]
      simp only [getLines]
      rw [if_neg hc]
      cases hg : getLines cs with
      | nil =>
        rcases ih with ih | ih
        · rw [hg] at ih
          exact absurd ih hne
        · left
          rw [ih, hg]
          rfl
      | cons l ls =>
        rcases ih with ih | ih
        · left
          rw [ih, hg]
          rfl
        · right
          rw [ih, hg]
          rfl

theorem mem_getLines {text : Str} :
    ∀ {l : Str}, l ∈ getLines text → (∀ c ∈ l, c ∈ text) ∧ Char.toNat '\n' ∉ l := by
  induction text with
  | nil => intro l h; simp [getLines] at h
  | cons c cs ih =>
    intro l h
    simp only [getLines] at h
    by_cases hc : c = Char.toNat '\n'
    · rw [if_pos hc] at h
      rcases List.mem_cons.1 h with rfl | h
      · simp
      · obtain ⟨h1, h2⟩ := ih h
        exact ⟨fun x hx => List.mem_cons_of_mem _ (h1 x hx), h2⟩
    · rw [if_neg hc] at h
      cases hg : getLines cs with
      | nil =>
        simp only [hg, List.mem_singleton] at h
        subst h
        refine ⟨by simp, ?_⟩
        simp only [List.mem_singleton]
        exact fun h => hc h.symm
      | cons l2 ls =>
        simp only [hg, List.mem_cons] at h
        rcases h with rfl | h
        · obtain ⟨h1, h2⟩ := ih (l := l2) (by rw [hg]; simp)
          refine ⟨?_, ?_⟩
          · intro x hx
            rcases List.mem_cons.1 hx with rfl | hx
            · simp
            · exact List.mem_cons_of_mem _ (h1 x hx)
          · intro hx
            rcases List.mem_cons.1 hx with hx | hx
            · exact hc hx.symm
            · exact h2 hx
        · obtain ⟨h1, h2⟩ := ih (l := l) (by rw [hg]; exact List.mem_cons_of_mem _ h)
          exact ⟨fun x hx => List.mem_cons_of_mem _ (h1 x hx), h2⟩

theorem mem_trimLine {line : Str} {c : Nat} (h : c ∈ trimLine line) : c ∈ line := by
  rw [trimLine_eq] at h
  exact (List.dropWhile_suffix isSpace).subset
    ((List.rdropWhile_prefix isSpace (line.dropWhile isSpace)).subset h)

theorem trimLine_ends (line : Str) :
    (∀ c ∈ (trimLine line).head?, isSpace c = false) ∧
    (∀ c ∈ (trimLine line).getLast?, isSpace c = false) := by
  rw [trimLine_eq]
  constructor
  · intro c hc
    have hpre := List.rdropWhile_prefix isSpace (line.dropWhile isSpace)
    obtain ⟨t, ht⟩ := hpre
    cases hr : List.rdropWhile isSpace (line.dropWhile isSpace) with
    | nil => simp [hr] at hc
    | cons a as =>
      simp only [hr, List.head?_cons, Option.mem_def, Option.some.injEq] at hc
      subst hc
      rw [hr] at ht
      have := List.head?_dropWhile_not isSpace line
      rw [← ht] at this
      simpa using this
  · intro c hc
    cases hr : List.rdropWhile isSpace (line.dropWhile isSpace) with
    | nil => simp [hr] at hc
    | cons a as =>
      have hne : List.rdropWhile isSpace (line.dropWhile isSpace) ≠ [] := by simp [hr]
      have := List.rdropWhile_last_not isSpace (line.dropWhile isSpace) hne
      rw [List.getLast?_eq_getLast _ hne] at hc
      simp only [Option.mem_def, Option.some.injEq] at hc
      rw [← hc]
      simpa using this

/-- Claim C14. The result is the list of the segments between the newlines of
the text, each with the whitespace at its two ends removed, without the empty
ones, in their order.  Every returned line is non-empty, neither starts nor
ends with whitespace and holds no newline; an empty text and a text of
whitespace only give the empty list. -/
theorem splitLines_trimmed_segments (text : Str) :
    splitLines text =
      ((text.splitOn (Char.toNat '\n')).map fun segment =>
        (segment.dropWhile isSpace).rdropWhile isSpace).filter (fun line => !line.isEmpty) ∧
    (∀ line ∈ splitLines text,
      line ≠ [] ∧ (∀ c ∈ line.head?, isSpace c = false) ∧
      (∀ c ∈ line.getLast?, isSpace c = false) ∧ Char.toNat '\n' ∉ line) ∧
    ((∀ c ∈ text, isSpace c = true) → splitLines text = []) ∧
    splitLines (str "") = [] ∧
    splitLines (str " \t \n\n  \r\n") = [] ∧
    splitLines (str "  Shots 12 9 \r\n\n\tFouls  7\n") = [str "Shots 12 9", str "Fouls  7"] := by
  have hmapeq : (fun segment : Str => (segment.dropWhile isSpace).rdropWhile isSpace) = trimLine := by
    funext segment
    exact (trimLine_eq segment).symm
  have hmem : ∀ line ∈ splitLines text, line ≠ [] ∧ ∃ seg ∈ getLines text, line = trimLine seg := by
    intro line hl
    simp only [splitLines, List.mem_filter, List.mem_map] at hl
    obtain ⟨⟨seg, hseg, rfl⟩, hne⟩ := hl
    refine ⟨?_, seg, hseg, rfl⟩
    intro h0
    simp [h0] at hne
  refine ⟨?_, ?_, ?_, by decide, by decide, by decide⟩
  · rw [hmapeq]
    rcases splitOn_getLines text with h | h
    · rw [h]; rfl
    · rw [h, List.map_append, List.filter_append]
      have : ([[]].map trimLine).filter (fun line => !line.isEmpty) = [] := by decide
      rw [this, List.append_nil]
      rfl
  · intro line hl
    obtain ⟨hne, seg, hseg, rfl⟩ := hmem line hl
    obtain ⟨h1, h2⟩ := trimLine_ends seg
    exact ⟨hne, h1, h2, fun h => (mem_getLines hseg).2 (mem_trimLine h)⟩
  · intro hall
    rw [List.eq_nil_iff_forall_not_mem]
    intro line hl
    obtain ⟨hne, seg, hseg, rfl⟩ := hmem line hl
    apply hne
    rw [trimLine_eq]
    have : seg.dropWhile isSpace = [] := by
      rw [List.dropWhile_eq_nil_iff]
      intro c hc
      exact hall c ((mem_getLines hseg).1 c hc)
    rw [this]
    rfl

/-! ## Lemmas: the output of `processScreenshot` -/

theorem foldl_append_eq_flatMap {α : Type} (f : α → Str) :
    ∀ (l : List α) (init : Str),
      l.foldl (fun out x => out ++ f x) init = init ++ l.flatMap f
  | [], init => by simp
  | x :: xs, init => by
    rw [List.foldl_cons, foldl_append_eq_flatMap f xs, List.flatMap_cons, List.append_assoc]

theorem getLines_line_cons {l : Str} (h : Char.toNat '\n' ∉ l) (rest : Str) :
    getLines (l ++ endl ++ rest) = l :: getLines rest := by
  induction l with
  | nil =>
    show getLines (Char.toNat '\n' :: rest) = _
    simp [getLines]
  | cons c cs ih =>
    have hc : c ≠ Char.toNat '\n' := fun e => h (by rw [e]; exact List.mem_cons_self _ _)
    have hcs : Char.toNat '\n' ∉ cs := fun e => h (List.mem_cons_of_mem _ e)
    have := ih hcs
    simp only [List.cons_append] at this ⊢
    simp only [getLines]
    rw [if_neg hc, this]

/-- Lines without a newline, each written with `std::endl`, are read back as
they were written. -/
theorem getLines_flatMap_endl :
    ∀ ls : List Str, (∀ l ∈ ls, Char.toNat '\n' ∉ l) →
      getLines (ls.flatMap fun l => l ++ endl) = ls
  | [], _ => by simp [getLines]
  | l :: ls, h => by
    rw [List.flatMap_cons, getLines_line_cons (h l (List.mem_cons_self _ _)),
      getLines_flatMap_endl ls fun l2 h2 => h l2 (List.mem_cons_of_mem _ h2)]

theorem isEmpty_iff_eq_nil (s : Str) : (s.isEmpty = true) ↔ s = [] := by
  cases s <;> simp

/-- The text written is the lines of the contract, each ended by `std::endl`. -/
theorem writeOutput_eq (teamNames : Str × Str) (stats : List MatchStatistic) :
    writeOutput teamNames stats =
      (outputContract teamNames stats).flatMap fun l => l ++ endl := by
  simp only [writeOutput, outputContract, foldl_append_eq_flatMap, List.flatMap_cons,
    isEmpty_iff_eq_nil, List.flatMap_map, List.append_assoc]

theorem outputContract_setTeams (teamNames names : Str × Str) (stats : List MatchStatistic) :
    outputContract teamNames (stats.map (setTeams names)) = outputContract teamNames stats := by
  simp only [outputContract, List.map_map]
  rfl

theorem statMappings_names_no_newline :
    ∀ e ∈ statMappings, Char.toNat '\n' ∉ e.2 := by
  decide

theorem record_no_newline {ocrText : Str} {r : MatchStatistic} (hr : r ∈ parseStatistics ocrText) :
    Char.toNat '\n' ∉ r.statName ∧ Char.toNat '\n' ∉ r.homeValue ∧
      Char.toNat '\n' ∉ r.awayValue := by
  obtain ⟨line, hl, hrl⟩ := mem_parseLoop hr
  obtain ⟨key, hentry, -⟩ := mem_parseLine hrl
  obtain ⟨other, -, h⟩ := mem_parseLine_tokens hl hrl
  have hchar : ∀ c : Nat, (isDigit c = true ∨ c = Char.toNat '.' ∨ c = Char.toNat '%') →
      c ≠ Char.toNat '\n' := by
    intro c hc
    simp only [isDigit_iff, Char.reduceToNat] at hc ⊢
    omega
  refine ⟨statMappings_names_no_newline _ (matchedEntry_mem hentry), ?_, ?_⟩
  · intro hmem
    rcases h with h | h
    · exact hchar _ (token_chars (Or.inl h.1) _ hmem) rfl
    · exact hchar _ (token_chars (Or.inr h.1) _ hmem) rfl
  · intro hmem
    rcases h with h | h
    · exact hchar _ (token_chars (Or.inl h.2) _ hmem) rfl
    · exact hchar _ (token_chars (Or.inr h.2) _ hmem) rfl

theorem teamName_no_newline (lines : List Str) :
    Char.toNat '\n' ∉ (extractTeamNames lines).1 ∧
      Char.toNat '\n' ∉ (extractTeamNames lines).2 := by
  have hletters : ∀ t : Str, IsTeamToken t → Char.toNat '\n' ∉ properCase t := by
    intro t ht hmem
    obtain ⟨c, cs, heq, hc, hcs⟩ := properCase_shape ht
    rw [heq] at hmem
    rcases List.mem_cons.1 hmem with h | h
    · rw [← h, isUpper_iff] at hc
      simp only [Char.reduceToNat] at hc
      omega
    · have := hcs _ h
      rw [isLower_iff] at this
      simp only [Char.reduceToNat] at this
      omega
  rcases extractTeamNames_cases lines with ⟨-, h⟩ | ⟨line, -, t1, t2, hc, h⟩
  · rw [h]; simp
  · obtain ⟨h1, h2, -⟩ := teamCandidate_some hc
    rw [h]
    exact ⟨hletters t1 h1, hletters t2 h2⟩

theorem mem_append_no_newline {a b : Str} (ha : Char.toNat '\n' ∉ a)
    (hb : Char.toNat '\n' ∉ b) : Char.toNat '\n' ∉ a ++ b := by
  intro h
  rcases List.mem_append.1 h with h | h
  · exact ha h
  · exact hb h

/-- Claim C16. For a run whose image loaded, the text written to standard
output consists of exactly these lines, each ended by `std::endl`: `HOME_TEAM:`
with the home name, or with `UNKNOWN` exactly when that name is empty;
`AWAY_TEAM:` likewise; then one line `STAT:name|home|away` for each record, in
the order of the list.  Read back line by line the output is this list, of 2
lines and one more for each record.  Nothing is written when the image did
not load. -/
theorem processScreenshot_output (headerOcrText ocrText : Str) :
    processScreenshot (some (headerOcrText, ocrText)) =
      (outputContract (extractTeamNames (splitLines headerOcrText))
        (parseStatistics ocrText)).flatMap (fun l => l ++ endl) ∧
    getLines (processScreenshot (some (headerOcrText, ocrText))) =
      outputContract (extractTeamNames (splitLines headerOcrText)) (parseStatistics ocrText) ∧
    (getLines (processScreenshot (some (headerOcrText, ocrText)))).length =
      2 + (parseStatistics ocrText).length ∧
    processScreenshot none = [] ∧
    processScreenshot (some (str "MATCH STATS\nARSENAL 2 - 1 CHELSEA\n",
        str "Possession 54% 46%\nShots 12 9\n")) =
      str "HOME_TEAM:Arsenal\nAWAY_TEAM:Chelsea\nSTAT:possession|54%|46%\nSTAT:shots|12|9\n" ∧
    processScreenshot (some (str "", str "Fouls 7\n")) =
      str "HOME_TEAM:UNKNOWN\nAWAY_TEAM:UNKNOWN\n" := by
  have h1 : processScreenshot (some (headerOcrText, ocrText)) =
      (outputContract (extractTeamNames (splitLines headerOcrText))
        (parseStatistics ocrText)).flatMap (fun l => l ++ endl) := by
    simp only [processScreenshot]
    rw [writeOutput_eq, outputContract_setTeams]
  have h2 : getLines (processScreenshot (some (headerOcrText, ocrText))) =
      outputContract (extractTeamNames (splitLines headerOcrText)) (parseStatistics ocrText) := by
    rw [h1]
    apply getLines_flatMap_endl
    obtain ⟨hn1, hn2⟩ := teamName_no_newline (splitLines headerOcrText)
    have hlit : ∀ s : Str, s ∈ [str "HOME_TEAM:", str "AWAY_TEAM:", str "UNKNOWN", str "STAT:",
        str "|"] → Char.toNat '\n' ∉ s := by decide
    intro l hl
    simp only [outputContract, List.mem_cons, List.mem_map] at hl
    rcases hl with rfl | rfl | ⟨r, hr, rfl⟩
    · apply mem_append_no_newline (hlit _ (by simp))
      split_ifs
      · exact hlit _ (by simp)
      · exact hn1
    · apply mem_append_no_newline (hlit _ (by simp))
      split_ifs
      · exact hlit _ (by simp)
      · exact hn2
    · obtain ⟨r1, r2, r3⟩ := record_no_newline hr
      refine mem_append_no_newline (mem_append_no_newline (mem_append_no_newline
        (mem_append_no_newline (mem_append_no_newline ?_ r1) ?_) r2) ?_) r3 <;>
        exact hlit _ (by simp)
  refine ⟨h1, h2, ?_, rfl, by decide, by decide⟩
  rw [h2]
  simp only [outputContract, List.length_cons, List.length_map]
  omega

/-! ## Lemmas: occurrences of a key -/

theorem strFind_mem {sub : Str} :
    ∀ {s : Str}, (strFind sub s).isSome = true → ∀ c ∈ sub, c ∈ s
  | [], h, c, hc => by
    simp only [strFind] at h
    split_ifs at h with he
    · have : sub = [] := by simpa using he
      rw [this] at hc
      simp at hc
    · simp at h
  | x :: xs, h, c, hc => by
    simp only [strFind] at h
    split_ifs at h with hp
    · exact (List.isPrefixOf_iff_prefix.1 hp).subset hc
    · have h2 : (strFind sub xs).isSome = true := by
        cases hf : strFind sub xs with
        | none => simp [hf] at h
        | some n => rfl
      exact List.mem_cons_of_mem _ (strFind_mem h2 c hc)

/-- A key whose last character does not occur in `a` occurs in `p ++ a` only
where it occurs in `p`. -/
theorem strFind_append_isSome {sub a : Str} {z : Nat} (hz : sub.getLast? = some z)
    (ha : z ∉ a) :
    ∀ p : Str, (strFind sub (p ++ a)).isSome = (strFind sub p).isSome
  | [] => by
    have hsub : sub ≠ [] := by
      intro h
      simp [h] at hz
    have h1 : (strFind sub a).isSome = false := by
      cases hf : (strFind sub a).isSome with
      | false => rfl
      | true => exact absurd (strFind_mem hf z (List.mem_of_getLast?_eq_some hz)) ha
    have h2 : strFind sub [] = none := by
      simp only [strFind]
      rw [if_neg (by simpa using hsub)]
    simp only [List.nil_append, h1, h2, Option.isSome_none]
  | c :: cs => by
    have ih := strFind_append_isSome hz ha cs
    have hpre : sub.isPrefixOf (c :: cs ++ a) = sub.isPrefixOf (c :: cs) := by
      rw [Bool.eq_iff_iff, List.isPrefixOf_iff_prefix, List.isPrefixOf_iff_prefix]
      constructor
      · intro h
        by_cases hlen : sub.length ≤ (c :: cs).length
        · exact List.prefix_of_prefix_length_le h (List.prefix_append _ _) hlen
        · exfalso
          have hp : (c :: cs) <+: sub :=
            List.prefix_of_prefix_length_le (List.prefix_append _ _) h (by omega)
          obtain ⟨r, hr⟩ := hp
          obtain ⟨ys, hys⟩ := List.getLast?_eq_some_iff.1 hz
          have hrne : r ≠ [] := by
            intro h0
            rw [h0, List.append_nil] at hr
            rw [← hr] at hlen
            exact hlen (Nat.le_refl _)
          have hrz : z ∈ r := by
            have h1 : sub.getLast? = r.getLast? := by
              rw [← hr, List.getLast?_append_of_ne_nil _ hrne]
            rw [hz] at h1
            exact List.mem_of_getLast?_eq_some h1.symm
          rw [← hr] at h
          have : r <+: a := (List.prefix_append_right_inj _).1 h
          exact ha (this.subset hrz)
      · intro h
        exact h.trans (List.prefix_append _ _)
    simp only [List.cons_append] at hpre ⊢
    simp only [strFind, hpre]
    split_ifs
    · rfl
    · simp only [Option.isSome_map']
      exact ih

/-! ## Lemmas: a line that ends with a number -/

theorem runLength_append (p : Nat → Bool) :
    ∀ (d rest : Str), (∀ c ∈ d, p c = true) →
      runLength p (d ++ rest) = d.length + runLength p rest
  | [], rest, _ => by simp
  | x :: xs, rest, h => by
    have hx := h x (List.mem_cons_self _ _)
    have ih := runLength_append p xs rest fun c hc => h c (List.mem_cons_of_mem _ hc)
    show runLength p (x :: (xs ++ rest)) = _
    simp only [runLength, hx, if_true, ih, List.length_cons]
    omega

theorem isNumber_chars {a : Str} (h : IsNumber a) :
    a ≠ [] ∧ (∀ c ∈ a, isDigit c = true ∨ c = Char.toNat '.') ∧
      (∀ c ∈ a.head?, isDigit c = true) := by
  obtain ⟨d1, hne, hd1, h⟩ := h
  cases d1 with
  | nil => exact absurd rfl hne
  | cons x xs =>
    rcases h with rfl | ⟨d2, -, hd2, rfl⟩
    · refine ⟨by simp, fun c hc => Or.inl (hd1 c hc), ?_⟩
      intro c hc
      simp only [List.head?_cons, Option.mem_def, Option.some.injEq] at hc
      rw [← hc]
      exact hd1 x (List.mem_cons_self _ _)
    · refine ⟨by simp, ?_, ?_⟩
      · intro c hc
        rcases List.mem_append.1 hc with hc | hc
        · rcases List.mem_append.1 hc with hc | hc
          · exact Or.inl (hd1 c hc)
          · right
            simpa [str] using hc
        · exact Or.inl (hd2 c hc)
      · intro c hc
        simp only [List.cons_append, List.head?_cons, Option.mem_def, Option.some.injEq] at hc
        rw [← hc]
        exact hd1 x (List.mem_cons_self _ _)

/-- The number pattern matches the whole of a number. -/
theorem numberPatternAt_of_isNumber {a : Str} (h : IsNumber a) (prev : Option Nat) :
    numberPatternAt prev a = some (a, a.length) := by
  obtain ⟨d1, hne, hd1, h⟩ := h
  have hlen : 0 < d1.length := List.length_pos.2 hne
  rcases h with rfl | ⟨d2, hne2, hd2, rfl⟩
  · have hk : runLength isDigit a = a.length := (runLength_eq_length_iff isDigit a).2 hd1
    simp only [numberPatternAt, hk, List.drop_length, List.head?_nil, List.take_length]
    rw [if_neg (by omega), if_neg (by simp)]
  · have hlen2 : 0 < d2.length := List.length_pos.2 hne2
    have hdot : str "." = [Char.toNat '.'] := rfl
    have hk : runLength isDigit (d1 ++ str "." ++ d2) = d1.length := by
      rw [List.append_assoc, runLength_append isDigit d1 _ hd1, hdot]
      simp [runLength, isDigit]
    have hk2 : runLength isDigit d2 = d2.length := (runLength_eq_length_iff isDigit d2).2 hd2
    have hdrop : (d1 ++ str "." ++ d2).drop d1.length = Char.toNat '.' :: d2 := by
      rw [List.append_assoc, List.drop_left, hdot]
      rfl
    have htot : d1.length + 1 + d2.length = (d1 ++ str "." ++ d2).length := by
      simp [hdot]
      omega
    simp only [numberPatternAt, hk, hdrop, List.tail_cons, hk2, List.head?_cons]
    rw [if_neg (by omega), if_pos ⟨trivial, hlen2⟩, htot, List.take_length]

theorem regexIterate_skip_all {α : Type} (matchAt : Option Nat → Str → Option (α × Nat)) :
    ∀ (s : Str) (skip : Nat) (prev : Option Nat), s.length ≤ skip →
      regexIterate matchAt skip prev s = []
  | [], _, _, _ => by simp [regexIterate]
  | c :: cs, 0, _, h => by simp at h
  | c :: cs, skip + 1, _, h => by
    simp only [regexIterate]
    exact regexIterate_skip_all matchAt cs skip (some c) (by simpa using h)

/-- A number, scanned alone, is its own single token. -/
theorem regexIterate_number_whole {a : Str} (h : IsNumber a) (prev : Option Nat) :
    regexIterate numberPatternAt 0 prev a = [a] := by
  have hm := numberPatternAt_of_isNumber h prev
  cases a with
  | nil => exact absurd rfl (isNumber_chars h).1
  | cons c cs =>
    simp only [regexIterate, hm, List.length_cons, Nat.add_sub_cancel]
    rw [regexIterate_skip_all _ cs _ _ (Nat.le_refl _)]

/-- Characters that are no digits, before the rest of the line, yield no
number. -/
theorem regexIterate_number_prefix (s : Str) :
    ∀ (p : Str) (prev : Option Nat), (∀ c ∈ p, isDigit c = false) →
      ∃ prev2, regexIterate numberPatternAt 0 prev (p ++ s) =
        regexIterate numberPatternAt 0 prev2 s
  | [], prev, _ => ⟨prev, rfl⟩
  | x :: xs, prev, h => by
    have hx := h x (List.mem_cons_self _ _)
    obtain ⟨prev2, ih⟩ :=
      regexIterate_number_prefix s xs (some x) fun c hc => h c (List.mem_cons_of_mem _ hc)
    refine ⟨prev2, ?_⟩
    have hm : numberPatternAt prev (x :: (xs ++ s)) = none := by
      simp [numberPatternAt, runLength, hx]
    show regexIterate numberPatternAt 0 prev (x :: (xs ++ s)) = _
    simp only [regexIterate, hm]
    exact ih

theorem numberTokens_label_number {label a : Str} (hl : ∀ c ∈ label, isDigit c = false)
    (ha : IsNumber a) : numberTokens (label ++ a) = [a] := by
  obtain ⟨prev2, h⟩ := regexIterate_number_prefix a label none hl
  rw [numberTokens, h, regexIterate_number_whole ha]

theorem getLines_single :
    ∀ b : Str, b ≠ [] → Char.toNat '\n' ∉ b → getLines b = [b]
  | [], h, _ => absurd rfl h
  | [c], _, hn => by
    have hc : c ≠ Char.toNat '\n' := fun e => hn (by simp [e])
    rw [getLines, if_neg hc]
    rfl
  | c :: c2 :: cs, _, hn => by
    have hc : c ≠ Char.toNat '\n' := fun e => hn (by simp [e])
    have ih := getLines_single (c2 :: cs) (by simp) fun e => hn (List.mem_cons_of_mem _ e)
    rw [getLines, if_neg hc, ih]

/-- A line that neither starts nor ends with whitespace is left as it is. -/
theorem trimLine_of_ends {l : Str} (h1 : ∀ c ∈ l.head?, isSpace c = false)
    (h2 : ∀ c ∈ l.getLast?, isSpace c = false) : trimLine l = l := by
  have hd : l.dropWhile isSpace = l := by
    cases l with
    | nil => rfl
    | cons c cs =>
      have := h1 c (by simp)
      simp [List.dropWhile_cons, this]
  rw [trimLine_eq, hd, List.rdropWhile_eq_self_iff]
  intro hl
  have := h2 (l.getLast hl) (by simp [List.getLast?_eq_getLast _ hl])
  simp [this]

theorem find?_congr_mem {α : Type} {p q : α → Bool} :
    ∀ {l : List α}, (∀ x ∈ l, p x = q x) → l.find? p = l.find? q
  | [], _ => rfl
  | x :: xs, h => by
    have hx := h x (List.mem_cons_self _ _)
    have ih := find?_congr_mem (l := xs) fun y hy => h y (List.mem_cons_of_mem _ hy)
    simp only [List.find?_cons, hx, ih]

/-- Every key of the vocabulary ends with a small letter. -/
theorem statMappings_key_last :
    ∀ e ∈ statMappings, ∃ z, e.1.getLast? = some z ∧ isLower z = true := by
  have h : ∀ e ∈ statMappings,
      (match e.1.getLast? with
        | some z => isLower z
        | none => false) = true := by
    decide
  intro e he
  have := h e he
  cases hz : e.1.getLast? with
  | none => simp [hz] at this
  | some z =>
    simp only [hz] at this
    exact ⟨z, rfl, this⟩

theorem not_mem_of_isLower {a : Str} (ha : ∀ c ∈ a, isDigit c = true ∨ c = Char.toNat '.')
    {z : Nat} (hz : isLower z = true) : z ∉ a := by
  intro hmem
  have := ha z hmem
  rw [isLower_iff] at hz
  simp only [isDigit_iff, Char.reduceToNat] at this
  omega

theorem map_tolower_number {a : Str} (ha : ∀ c ∈ a, isDigit c = true ∨ c = Char.toNat '.') :
    a.map tolower = a := by
  conv_rhs => rw [← List.map_id a]
  apply List.map_congr_left
  intro c hc
  have := ha c hc
  simp only [isDigit_iff, Char.reduceToNat] at this
  simp only [tolower, isUpper_iff, id]
  rw [if_neg (by omega)]

/-- The entry matched by a label followed by a number is the entry matched by
the label. -/
theorem matchedEntry_label_number (label : Str) {a : Str}
    (ha : ∀ c ∈ a, isDigit c = true ∨ c = Char.toNat '.') :
    matchedEntry (label ++ a) =
      statMappings.find? fun statPair => (strFind statPair.1 (label.map tolower)).isSome := by
  simp only [matchedEntry, List.map_append, map_tolower_number ha]
  apply find?_congr_mem
  intro e he
  obtain ⟨z, hz, hlow⟩ := statMappings_key_last e he
  exact strFind_append_isSome hz (not_mem_of_isLower ha hlow) _

/-- Claim C17. For numbers `a` and `b` of at most 4 characters each, the text
of the two lines `Offside a` and `b` gives exactly one record: its name is the
canonical `offsides`, its home value `a` and its away value `b`.  With 3 and
5 the record is (offsides, 3, 5). -/
theorem parseStatistics_offside_two_lines (a b : Str)
    (ha : IsNumber a) (ha4 : a.length ≤ 4) (hb : IsNumber b) (hb4 : b.length ≤ 4) :
    splitLines (str "Offside " ++ a ++ str "\n" ++ b) = [str "Offside " ++ a, b] ∧
    parseStatistics (str "Offside " ++ a ++ str "\n" ++ b) = [mkStat (str "offsides") a b] ∧
    parseStatistics (str "Offside 3\n5") = [mkStat (str "offsides") (str "3") (str "5")] := by
  obtain ⟨hane, hachars, hahead⟩ := isNumber_chars ha
  obtain ⟨hbne, hbchars, hbhead⟩ := isNumber_chars hb
  have hnospace : ∀ c : Nat, (isDigit c = true ∨ c = Char.toNat '.') →
      isSpace c = false ∧ c ≠ Char.toNat '\n' := by
    intro c hc
    simp only [isDigit_iff, Char.reduceToNat] at hc
    simp only [isSpace, Char.reduceToNat]
    constructor
    · simp only [Bool.or_eq_false_iff, beq_eq_false_iff_ne, ne_eq, Bool.and_eq_false_iff,
        decide_eq_false_iff_not]
      omega
    · omega
  have hlabel : ∀ c ∈ str "Offside ", isDigit c = false ∧ c ≠ Char.toNat '\n' := by decide
  have hl1nl : Char.toNat '\n' ∉ str "Offside " ++ a := by
    intro h
    rcases List.mem_append.1 h with h | h
    · exact (hlabel _ h).2 rfl
    · exact (hnospace _ (hachars _ h)).2 rfl
  have hbnl : Char.toNat '\n' ∉ b := fun h => (hnospace _ (hbchars _ h)).2 rfl
  have hget : getLines (str "Offside " ++ a ++ str "\n" ++ b) = [str "Offside " ++ a, b] := by
    have := getLines_line_cons hl1nl b
    rw [getLines_single b hbne hbnl] at this
    exact this
  have hlast : ∀ s : Str, (∀ c ∈ s, isDigit c = true ∨ c = Char.toNat '.') →
      ∀ c ∈ s.getLast?, isSpace c = false := by
    intro s hs c hc
    exact (hnospace c (hs c (List.mem_of_getLast?_eq_some hc))).1
  have htrim1 : trimLine (str "Offside " ++ a) = str "Offside " ++ a := by
    apply trimLine_of_ends
    · intro c hc
      have : c = Char.toNat 'O' := by
        have h0 : (str "Offside " ++ a).head? = some (Char.toNat 'O') := rfl
        rw [h0] at hc
        simpa using hc.symm
      rw [this]
      decide
    · intro c hc
      rw [List.getLast?_append_of_ne_nil _ hane] at hc
      exact hlast a hachars c hc
  have htrim2 : trimLine b = b := by
    apply trimLine_of_ends
    · intro c hc
      have hmem : c ∈ b := List.mem_of_mem_head? hc
      exact (hnospace c (hbchars c hmem)).1
    · exact hlast b hbchars
  have hsplit : splitLines (str "Offside " ++ a ++ str "\n" ++ b) = [str "Offside " ++ a, b] := by
    simp only [splitLines, hget, List.map_cons, List.map_nil, htrim1, htrim2]
    have h1 : (str "Offside " ++ a).isEmpty = false := rfl
    have h2 : b.isEmpty = false := by
      cases b with
      | nil => exact absurd rfl hbne
      | cons _ _ => rfl
    simp [List.filter_cons, h1, h2]
  have hentry : matchedEntry (str "Offside " ++ a) = some (str "offside", str "offsides") := by
    rw [matchedEntry_label_number _ hachars]
    decide
  have hone : shortNumbers (str "Offside " ++ a) = [a] := by
    rw [shortNumbers, numberTokens_label_number (fun c hc => (hlabel c hc).1) ha]
    simp [List.filter_cons, ha4]
  have htokb : numberTokens b = [b] := by
    have := @numberTokens_label_number [] b (by simp) hb
    simpa using this
  have hne : b ≠ str "Offside " ++ a := by
    intro h
    have hh : b.head? = some (Char.toNat 'O') := by rw [h]; rfl
    have := hbhead _ hh
    revert this
    decide
  have hrec1 : parseLine [str "Offside " ++ a, b] (str "Offside " ++ a) =
      [mkStat (str "offsides") a b] := by
    rw [parseLine_number hentry (by decide)]
    exact @numberBranch_one_found _ [str "Offside " ++ a] [] [] _ _ _ _ _
      hone rfl (fun l hl => Or.inl (by simpa using hl)) hne htokb hb4
  have hentry2 : matchedEntry b = none := by
    have := matchedEntry_label_number [] hbchars
    simp only [List.nil_append] at this
    rw [this]
    decide
  have hrec2 : parseLine [str "Offside " ++ a, b] b = [] := by
    simp [parseLine, hentry2]
  refine ⟨hsplit, ?_, by decide⟩
  simp only [parseStatistics, hsplit]
  rw [parseLoop_cons, parseLoop_cons, hrec1, hrec2]
  simp [parseLoop]

/-- The lines `Offside 3` and `12.5` give the record (offsides, 3, 12.5). -/
theorem parseStatistics_offside_two_lines_witness :
    IsNumber (str "3") ∧ (str "3").length ≤ 4 ∧ IsNumber (str "12.5") ∧ (str "12.5").length ≤ 4 ∧
    parseStatistics (str "Offside " ++ str "3" ++ str "\n" ++ str "12.5") =
      [mkStat (str "offsides") (str "3") (str "12.5")] :=
  have h3 : IsNumber (str "3") := ⟨str "3", by decide, by decide, Or.inl rfl⟩
  have h125 : IsNumber (str "12.5") :=
    ⟨str "12", by decide, by decide, Or.inr ⟨str "5", by decide, by decide, by decide⟩⟩
  ⟨h3, by decide, h125, by decide,
    (parseStatistics_offside_two_lines (str "3") (str "12.5") h3 (by decide) h125
      (by decide)).2.1⟩

/-! ## Lemmas: the search for the two tokens -/

theorem findSome?_greedyCounts_eq_some {β : Type} {f : Nat → Option β} {b : β} (lo : Nat) :
    ∀ hi : Nat, (greedyCounts lo hi).findSome? f = some b →
      ∃ j, lo ≤ j ∧ j ≤ hi ∧ f j = some b ∧ ∀ j2, j < j2 → j2 ≤ hi → f j2 = none
  | 0, h => by
    obtain ⟨j, hj, hf⟩ := List.exists_of_findSome?_eq_some h
    rw [mem_greedyCounts] at hj
    exact ⟨j, hj.1, hj.2, hf, fun j2 h1 h2 => by omega⟩
  | hi + 1, h => by
    rw [greedyCounts_succ] at h
    by_cases hle : lo ≤ hi + 1
    · rw [if_pos hle, List.findSome?_cons] at h
      cases hf : f (hi + 1) with
      | some b2 =>
        simp only [hf, Option.some.injEq] at h
        subst h
        exact ⟨hi + 1, hle, Nat.le_refl _, hf, fun j2 h1 h2 => by omega⟩
      | none =>
        simp only [hf] at h
        obtain ⟨j, h1, h2, h3, h4⟩ := findSome?_greedyCounts_eq_some lo hi h
        refine ⟨j, h1, by omega, h3, ?_⟩
        intro j2 hj2 hj2le
        by_cases he : j2 = hi + 1
        · rw [he]; exact hf
        · exact h4 j2 hj2 (by omega)
    · rw [if_neg hle] at h
      obtain ⟨j, h1, h2, h3, h4⟩ := findSome?_greedyCounts_eq_some lo hi h
      omega

theorem findSome?_greedyCounts_eq_none {β : Type} {f : Nat → Option β} {lo hi : Nat} :
    (greedyCounts lo hi).findSome? f = none ↔ ∀ j, lo ≤ j → j ≤ hi → f j = none := by
  rw [List.findSome?_eq_none_iff]
  constructor
  · intro h j h1 h2
    exact h j (mem_greedyCounts.2 ⟨h1, h2⟩)
  · intro h j hj
    rw [mem_greedyCounts] at hj
    exact h j hj.1 hj.2

theorem lastChar_append (prev : Option Nat) (x y : Str) :
    lastChar prev (x ++ y) = lastChar (lastChar prev x) y := by
  simp only [lastChar, List.getLast?_append]
  cases y.getLast? <;> cases x.getLast? <;> rfl

theorem lastChar_cons (prev : Option Nat) (c : Nat) (l : Str) :
    lastChar prev (c :: l) = lastChar (some c) l := by
  have := lastChar_append prev [c] l
  simpa [lastChar] using this

theorem lastChar_none (x : Str) : lastChar none x = x.getLast? := by
  simp only [lastChar]
  cases x.getLast? <;> rfl

/-- The search succeeds at the leftmost position at which the pattern
matches. -/
theorem regexSearch_eq_some {α : Type} (matchAt : Option Nat → Str → Option α) {r : α} :
    ∀ (s : Str) (prev : Option Nat), regexSearch matchAt prev s = some r →
      ∃ i, i ≤ s.length ∧ matchAt (lastChar prev (s.take i)) (s.drop i) = some r ∧
        ∀ i2, i2 < i → matchAt (lastChar prev (s.take i2)) (s.drop i2) = none
  | [], prev, h => ⟨0, Nat.le_refl _, by simpa [regexSearch, lastChar] using h,
      fun i2 hi => by omega⟩
  | c :: cs, prev, h => by
    simp only [regexSearch] at h
    cases hm : matchAt prev (c :: cs) with
    | some r2 =>
      simp only [hm, Option.some.injEq] at h
      subst h
      exact ⟨0, Nat.zero_le _, by simpa [lastChar] using hm, fun i2 hi => by omega⟩
    | none =>
      simp only [hm] at h
      obtain ⟨i, h1, h2, h3⟩ := regexSearch_eq_some matchAt cs (some c) h
      refine ⟨i + 1, by simpa using h1, ?_, ?_⟩
      · simpa [lastChar_cons] using h2
      · intro i2 hi2
        cases i2 with
        | zero => simpa [lastChar] using hm
        | succ n =>
          have := h3 n (by omega)
          simpa [lastChar_cons] using this

theorem regexSearch_eq_none {α : Type} (matchAt : Option Nat → Str → Option α) :
    ∀ (s : Str) (prev : Option Nat), regexSearch matchAt prev s = none →
      ∀ i, i ≤ s.length → matchAt (lastChar prev (s.take i)) (s.drop i) = none
  | [], prev, h, i, hi => by
    have : i = 0 := by simpa using hi
    subst this
    simpa [regexSearch, lastChar] using h
  | c :: cs, prev, h, i, hi => by
    simp only [regexSearch] at h
    cases hm : matchAt prev (c :: cs) with
    | some r2 => simp [hm] at h
    | none =>
      simp only [hm] at h
      cases i with
      | zero => simpa [lastChar] using hm
      | succ n =>
        have := regexSearch_eq_none matchAt cs (some c) h n (by simpa using hi)
        simpa [lastChar_cons] using this

theorem drop_of_lt_runLength (p : Nat → Bool) :
    ∀ (s : Str) (k : Nat), k < runLength p s → ∃ c cs, s.drop k = c :: cs ∧ p c = true
  | [], k, h => by simp [runLength] at h
  | a :: as, 0, h => by
    refine ⟨a, as, rfl, ?_⟩
    by_contra ha
    simp [runLength, ha] at h
  | a :: as, k + 1, h => by
    have ha : p a = true := by
      by_contra ha
      simp [runLength, ha] at h
    simp only [runLength, ha, if_true] at h
    simpa using drop_of_lt_runLength p as k (by omega)

theorem getLast?_take_of_le_runLength (p : Nat → Bool) {s : Str} {k : Nat} (h1 : 1 ≤ k)
    (h2 : k ≤ runLength p s) : ∃ c, (s.take k).getLast? = some c ∧ p c = true := by
  have hlen := runLength_le_length p s
  have hne : s.take k ≠ [] := by
    intro h0
    have : (s.take k).length = 0 := by rw [h0]; rfl
    rw [List.length_take] at this
    omega
  refine ⟨(s.take k).getLast hne, List.getLast?_eq_getLast _ hne, ?_⟩
  exact forall_mem_take_runLength p s k h2 _ (List.getLast_mem hne)

theorem isWordChar_of_isUpper {c : Nat} (h : isUpper c = true) : isWordChar c = true := by
  simp [isWordChar, h]

/-- Between two letters of a run there is no word boundary. -/
theorem wordBoundary_inside_run (prev : Option Nat) {rest : Str} {k : Nat} (h1 : 1 ≤ k)
    (h2 : k < runLength isUpper rest) :
    wordBoundary (lastChar prev (rest.take k)) (rest.drop k) = false := by
  obtain ⟨c, hc, hup⟩ := getLast?_take_of_le_runLength isUpper h1 (Nat.le_of_lt h2)
  obtain ⟨d, ds, hd, hdup⟩ := drop_of_lt_runLength isUpper rest k h2
  simp [wordBoundary, lastChar, hc, hd, isWordChar_of_isUpper hup, isWordChar_of_isUpper hdup]

/-- A capture group `\b([A-Z]{4,15})\b` followed by the rest `K` of a pattern
matches exactly at a whole word, with the whole of it. -/
theorem group_then {β : Type} (prev : Option Nat) (rest : Str) (K : Nat → Option β) :
    (if (!wordBoundary prev rest) = true then none
      else
        (greedyCounts 4 (min 15 (runLength isUpper rest))).findSome? fun k =>
          if (!wordBoundary (lastChar prev (rest.take k)) (rest.drop k)) = true then none
          else K k) =
      (tokenLenAt prev rest).bind K := by
  by_cases hb : wordBoundary prev rest = true
  swap
  · have hb2 : wordBoundary prev rest = false := by simpa using hb
    simp [tokenLenAt, hb2]
  have hinner : ∀ k, 4 ≤ k → k < runLength isUpper rest →
      (if (!wordBoundary (lastChar prev (rest.take k)) (rest.drop k)) = true then none
        else K k) = none := by
    intro k h4 hk
    simp [wordBoundary_inside_run prev (by omega : 1 ≤ k) hk]
  rw [if_neg (by simp [hb])]
  by_cases hr : 4 ≤ runLength isUpper rest ∧ runLength isUpper rest ≤ 15
  · have hmin : min 15 (runLength isUpper rest) = runLength isUpper rest := by omega
    obtain ⟨L, hL, hLk⟩ := @greedyCounts_top 4 (runLength isUpper rest) hr.1
    rw [hmin, hL, List.findSome?_cons]
    have hrest : L.findSome? (fun k =>
        if (!wordBoundary (lastChar prev (rest.take k)) (rest.drop k)) = true then none
        else K k) = none := by
      rw [List.findSome?_eq_none_iff]
      intro k hk
      exact hinner k (hLk k hk).1 (hLk k hk).2
    rw [hrest]
    by_cases hb3 : wordBoundary (lastChar prev (rest.take (runLength isUpper rest)))
        (rest.drop (runLength isUpper rest)) = true
    · simp only [tokenLenAt, hb, hr.1, hr.2, hb3, and_self, if_true, Option.some_bind]
      simp only [Bool.not_true, Bool.false_eq_true, if_false]
      cases K (runLength isUpper rest) <;> rfl
    · have hb4 : wordBoundary (lastChar prev (rest.take (runLength isUpper rest)))
          (rest.drop (runLength isUpper rest)) = false := by simpa using hb3
      simp [tokenLenAt, hb4]
  · have htok : tokenLenAt prev rest = none := by
      simp only [tokenLenAt]
      rw [if_neg]
      intro h
      exact hr ⟨h.2.1, h.2.2.1⟩
    rw [htok, Option.none_bind, List.findSome?_eq_none_iff]
    intro k hk
    rw [mem_greedyCounts] at hk
    apply hinner k hk.1
    have := hk.2
    omega

theorem group_last {β : Type} (prev : Option Nat) (rest : Str) (F : Nat → β) :
    (if (!wordBoundary prev rest) = true then none
      else
        (greedyCounts 4 (min 15 (runLength isUpper rest))).findSome? fun k =>
          if wordBoundary (lastChar prev (rest.take k)) (rest.drop k) = true then some (F k)
          else none) =
      (tokenLenAt prev rest).map F := by
  have h := group_then prev rest fun k => some (F k)
  have hfun : (fun k =>
      if wordBoundary (lastChar prev (rest.take k)) (rest.drop k) = true then some (F k)
      else none) =
      fun k =>
        if (!wordBoundary (lastChar prev (rest.take k)) (rest.drop k)) = true then none
        else some (F k) := by
    funext k
    cases wordBoundary (lastChar prev (rest.take k)) (rest.drop k) <;> rfl
  rw [hfun, h]
  cases tokenLenAt prev rest <;> rfl

theorem lastChar_take_add (prev : Option Nat) (s : Str) (a b : Nat) :
    lastChar (lastChar prev (s.take a)) ((s.drop a).take b) = lastChar prev (s.take (a + b)) := by
  rw [List.take_add, lastChar_append]

/-- The two-teams pattern at one position: a whole word there, then, of the
places that `.*` reaches, the rightmost one at which a whole word starts. -/
theorem twoTeamsPatternAt_eq (prev : Option Nat) (rest : Str) :
    twoTeamsPatternAt prev rest =
      (tokenLenAt prev rest).bind fun k1 =>
        (greedyCounts 0 (runLength isAnyChar (rest.drop k1))).findSome? fun j =>
          (tokenLenAt (lastChar prev (rest.take (k1 + j))) (rest.drop (k1 + j))).map fun k2 =>
            (rest.take k1, (rest.drop (k1 + j)).take k2) := by
  have hinner : ∀ k1 j : Nat,
      (if (!wordBoundary (lastChar (lastChar prev (rest.take k1)) ((rest.drop k1).take j))
            ((rest.drop k1).drop j)) = true then none
        else
          (greedyCounts 4 (min 15 (runLength isUpper ((rest.drop k1).drop j)))).findSome?
            fun k2 =>
              if wordBoundary
                  (lastChar (lastChar (lastChar prev (rest.take k1)) ((rest.drop k1).take j))
                    (((rest.drop k1).drop j).take k2))
                  (((rest.drop k1).drop j).drop k2) = true then
                some (rest.take k1, ((rest.drop k1).drop j).take k2)
              else none) =
        (tokenLenAt (lastChar prev (rest.take (k1 + j))) (rest.drop (k1 + j))).map fun k2 =>
          (rest.take k1, (rest.drop (k1 + j)).take k2) := by
    intro k1 j
    rw [group_last, lastChar_take_add, List.drop_drop]
  have hfun : (fun k1 =>
      if (!wordBoundary (lastChar prev (rest.take k1)) (rest.drop k1)) = true then none
      else
        (greedyCounts 0 (runLength isAnyChar (rest.drop k1))).findSome? fun j =>
          if (!wordBoundary (lastChar (lastChar prev (rest.take k1)) ((rest.drop k1).take j))
              ((rest.drop k1).drop j)) = true then none
          else
            (greedyCounts 4 (min 15 (runLength isUpper ((rest.drop k1).drop j)))).findSome?
              fun k2 =>
                if wordBoundary
                    (lastChar (lastChar (lastChar prev (rest.take k1)) ((rest.drop k1).take j))
                      (((rest.drop k1).drop j).take k2))
                    (((rest.drop k1).drop j).drop k2) = true then
                  some (rest.take k1, ((rest.drop k1).drop j).take k2)
                else none) =
      fun k1 =>
        if (!wordBoundary (lastChar prev (rest.take k1)) (rest.drop k1)) = true then none
        else
          (greedyCounts 0 (runLength isAnyChar (rest.drop k1))).findSome? fun j =>
            (tokenLenAt (lastChar prev (rest.take (k1 + j))) (rest.drop (k1 + j))).map
              fun k2 => (rest.take k1, (rest.drop (k1 + j)).take k2) := by
    funext k1
    congr 1
    congr 1
    funext j
    exact hinner k1 j
  show (if (!wordBoundary prev rest) = true then none
      else (greedyCounts 4 (min 15 (runLength isUpper rest))).findSome? _) = _
  rw [hfun, group_then]

theorem twoTeamsPatternAt_pos (u : Str) (i : Nat) :
    twoTeamsPatternAt (lastChar none (u.take i)) (u.drop i) =
      (tokenAt u i).bind fun k1 =>
        (greedyCounts 0 (runLength isAnyChar (u.drop (i + k1)))).findSome? fun j =>
          (tokenAt u (i + k1 + j)).map fun k2 =>
            ((u.drop i).take k1, (u.drop (i + k1 + j)).take k2) := by
  rw [twoTeamsPatternAt_eq]
  simp only [tokenAt, lastChar_take_add, List.drop_drop, Nat.add_assoc]

theorem wordBoundary_some_cons {p c : Nat} {cs : Str} (hc : isWordChar c = true) :
    wordBoundary (some p) (c :: cs) = !isWordChar p := by
  simp [wordBoundary, hc]

/-- A whole word found at a position, with what stands before and after it. -/
theorem tokenLenAt_some {prev : Option Nat} {rest : Str} {k : Nat}
    (h : tokenLenAt prev rest = some k) :
    k = runLength isUpper rest ∧ (rest.take k).length = k ∧ IsTeamToken (rest.take k) ∧
      (∀ c ∈ prev, isWordChar c = false) ∧ (∀ c ∈ (rest.drop k).head?, isWordChar c = false) := by
  simp only [tokenLenAt] at h
  split_ifs at h with hc
  obtain ⟨hb, h4, h15, hb2⟩ := hc
  simp only [Option.some.injEq] at h
  subst h
  have hlen := runLength_le_length isUpper rest
  have hl : (rest.take (runLength isUpper rest)).length = runLength isUpper rest := by
    rw [List.length_take]
    omega
  obtain ⟨c, cs, hd, hcu⟩ := drop_of_lt_runLength isUpper rest 0 (by omega)
  simp only [List.drop_zero] at hd
  obtain ⟨l, hlast, hlu⟩ := getLast?_take_of_le_runLength isUpper (s := rest)
    (by omega : 1 ≤ runLength isUpper rest) (Nat.le_refl _)
  refine ⟨rfl, hl, ⟨by omega, by omega,
    forall_mem_take_runLength isUpper rest _ (Nat.le_refl _)⟩, ?_, ?_⟩
  · intro p hp
    simp only [Option.mem_def] at hp
    subst hp
    rw [hd, wordBoundary_some_cons (isWordChar_of_isUpper hcu)] at hb
    simpa using hb
  · intro x hx
    cases hdr : rest.drop (runLength isUpper rest) with
    | nil => simp [hdr] at hx
    | cons y ys =>
      simp only [hdr, List.head?_cons, Option.mem_def, Option.some.injEq] at hx
      subst hx
      simp only [lastChar, hlast, hdr, wordBoundary, isWordChar_of_isUpper hlu] at hb2
      simpa using hb2

theorem runLength_eq_zero_of_head (p : Nat → Bool) {b : Str}
    (h : ∀ c ∈ b.head?, p c = false) : runLength p b = 0 := by
  cases b with
  | nil => rfl
  | cons c cs =>
    have := h c (by simp)
    simp [runLength, this]

theorem isUpper_false_of_isWordChar {c : Nat} (h : isWordChar c = false) : isUpper c = false := by
  cases hu : isUpper c with
  | false => rfl
  | true =>
    rw [isWordChar_of_isUpper hu] at h
    exact absurd h (by simp)

/-- A whole word in its place is found at its position. -/
theorem tokenLenAt_of_isWholeWord {a t b : Str} (h : IsWholeWord a t b) :
    tokenLenAt a.getLast? (t ++ b) = some t.length := by
  obtain ⟨⟨h4, h15, hup⟩, hbefore, hafter⟩ := h
  have hrun : runLength isUpper (t ++ b) = t.length := by
    rw [runLength_append isUpper t b hup,
      runLength_eq_zero_of_head isUpper fun c hc => isUpper_false_of_isWordChar (hafter c hc)]
    rfl
  cases t with
  | nil => simp at h4
  | cons x xs =>
    have hx := isWordChar_of_isUpper (hup x (List.mem_cons_self _ _))
    have hne : (x :: xs) ≠ [] := by simp
    have hlast := isWordChar_of_isUpper (hup _ (List.getLast_mem hne))
    have hb1 : wordBoundary a.getLast? (x :: xs ++ b) = true := by
      cases hg : a.getLast? with
      | none => simp [wordBoundary, hx]
      | some p =>
        have := hbefore p (by simp [hg])
        simp [wordBoundary, hx, this]
    have hb2 : wordBoundary (lastChar a.getLast? (x :: xs)) b = true := by
      have hl : lastChar a.getLast? (x :: xs) = some ((x :: xs).getLast hne) := by
        simp only [lastChar, List.getLast?_eq_getLast _ hne]
      rw [hl]
      cases b with
      | nil => simp [wordBoundary, hlast]
      | cons y ys =>
        have := hafter y (by simp)
        simp [wordBoundary, hlast, this]
    simp only [tokenLenAt, hrun, List.take_left', List.drop_left', hb1, hb2]
    simp only [List.length_cons] at h4 h15 ⊢
    rw [if_pos ⟨trivial, by omega, by omega, trivial⟩]

theorem tokenAt_some {u : Str} {n k : Nat} (h : tokenAt u n = some k) :
    u = u.take n ++ (u.drop n).take k ++ u.drop (n + k) ∧
      ((u.drop n).take k).length = k ∧ (u.take n).length = n ∧
      IsWholeWord (u.take n) ((u.drop n).take k) (u.drop (n + k)) := by
  obtain ⟨-, hl, htok, hprev, hnext⟩ := tokenLenAt_some h
  rw [lastChar_none] at hprev
  rw [List.drop_drop] at hnext
  have hn : n ≤ u.length := by
    by_contra hlt
    have : u.drop n = [] := List.drop_eq_nil_of_le (by omega)
    have h4 := htok.1
    rw [this] at h4
    simp at h4
  refine ⟨?_, hl, by rw [List.length_take]; omega, htok, hprev, hnext⟩
  rw [List.append_assoc, ← List.drop_drop, List.take_append_drop, List.take_append_drop]

theorem tokenAt_of_isWholeWord {u a t b : Str} (hu : u = a ++ t ++ b) (h : IsWholeWord a t b) :
    tokenAt u a.length = some t.length := by
  have h1 : u.take a.length = a := by
    rw [hu, List.append_assoc, List.take_left']
    rfl
  have h2 : u.drop a.length = t ++ b := by
    rw [hu, List.append_assoc, List.drop_left']
    rfl
  rw [tokenAt, h1, h2, lastChar_none]
  exact tokenLenAt_of_isWholeWord h

/-- Two whole words do not overlap, nor touch. -/
theorem tokenAt_disjoint {u : Str} {i i2 k k2 : Nat} (h1 : tokenAt u i = some k)
    (h2 : tokenAt u i2 = some k2) (hlt : i < i2) : i + k < i2 := by
  by_contra hcon
  obtain ⟨hk, -, -, -, hnext⟩ := tokenLenAt_some h1
  obtain ⟨hk2, -, htok2, -, -⟩ := tokenLenAt_some h2
  have hpos2 : 0 < runLength isUpper (u.drop i2) := by
    have := htok2.1
    have hle := List.length_take_le k2 (u.drop i2)
    omega
  obtain ⟨c, cs, hd, hcu⟩ := drop_of_lt_runLength isUpper (u.drop i2) 0 hpos2
  simp only [List.drop_zero] at hd
  by_cases heq : i2 = i + k
  · rw [List.drop_drop, ← heq, hd] at hnext
    have := hnext c (by simp)
    rw [isWordChar_of_isUpper hcu] at this
    exact absurd this (by simp)
  · have hin := @wordBoundary_inside_run (lastChar none (u.take i)) (u.drop i)
      (i2 - i) (by omega) (by omega)
    rw [lastChar_take_add, List.drop_drop] at hin
    have hidx : i + (i2 - i) = i2 := by omega
    rw [hidx] at hin
    simp only [tokenAt, tokenLenAt] at h2
    split_ifs at h2 with hc
    rw [hin] at hc
    exact absurd hc.1 (by simp)

theorem runLength_isAnyChar_drop {u : Str} (hu : ∀ c ∈ u, isAnyChar c = true) (n : Nat) :
    runLength isAnyChar (u.drop n) = u.length - n := by
  rw [(runLength_eq_length_iff isAnyChar (u.drop n)).2
    fun c hc => hu c (List.mem_of_mem_drop hc), List.length_drop]

/-- On a line without line breaks the search finds the first whole word of the
line and the last one, when the line has two. -/
theorem regexSearch_twoTeams_pos {u t1 t2 : Str} (hu : ∀ c ∈ u, isAnyChar c = true)
    (h : regexSearch twoTeamsPatternAt none u = some (t1, t2)) :
    ∃ i k1 j k2, tokenAt u i = some k1 ∧ tokenAt u (i + k1 + j) = some k2 ∧
      t1 = (u.drop i).take k1 ∧ t2 = (u.drop (i + k1 + j)).take k2 ∧
      ∀ n k, tokenAt u n = some k → i ≤ n ∧ n ≤ i + k1 + j := by
  obtain ⟨i, hi, hm, hmin⟩ := regexSearch_eq_some twoTeamsPatternAt u none h
  rw [twoTeamsPatternAt_pos] at hm
  cases hk1 : tokenAt u i with
  | none => simp [hk1] at hm
  | some k1 =>
    simp only [hk1, Option.some_bind] at hm
    obtain ⟨j, -, hjR, hmap, hmax⟩ := findSome?_greedyCounts_eq_some 0 _ hm
    cases hk2 : tokenAt u (i + k1 + j) with
    | none => simp [hk2] at hmap
    | some k2 =>
      simp only [hk2, Option.map_some', Option.some.injEq, Prod.mk.injEq] at hmap
      refine ⟨i, k1, j, k2, hk1, hk2, hmap.1.symm, hmap.2.symm, ?_⟩
      intro n k hn
      have hnle : n ≤ u.length := by
        have := (tokenAt_some hn).2.2.1
        rw [List.length_take] at this
        omega
      constructor
      · by_contra hlt
        have hnone := hmin n (by omega)
        rw [twoTeamsPatternAt_pos, hn, Option.some_bind, findSome?_greedyCounts_eq_none] at hnone
        have hd := tokenAt_disjoint hn hk1 (by omega)
        have := hnone (i - (n + k)) (Nat.zero_le _)
          (by rw [runLength_isAnyChar_drop hu]; omega)
        have hidx : n + k + (i - (n + k)) = i := by omega
        rw [hidx, hk1] at this
        simp at this
      · by_contra hgt
        have := hmax (n - (i + k1)) (by omega) (by rw [runLength_isAnyChar_drop hu]; omega)
        have hidx : i + k1 + (n - (i + k1)) = n := by omega
        rw [hidx, hn] at this
        simp at this

theorem regexSearch_twoTeams_none {u : Str} (hu : ∀ c ∈ u, isAnyChar c = true)
    (h : regexSearch twoTeamsPatternAt none u = none) {i k1 n k2 : Nat}
    (h1 : tokenAt u i = some k1) (h2 : tokenAt u n = some k2) (hlt : i < n) : False := by
  have hile : i ≤ u.length := by
    have := (tokenAt_some h1).2.2.1
    rw [List.length_take] at this
    omega
  have hnle : n ≤ u.length := by
    have := (tokenAt_some h2).2.2.1
    rw [List.length_take] at this
    omega
  have hnone := regexSearch_eq_none twoTeamsPatternAt u none h i hile
  rw [twoTeamsPatternAt_pos, h1, Option.some_bind, findSome?_greedyCounts_eq_none] at hnone
  have hd := tokenAt_disjoint h1 h2 hlt
  have := hnone (n - (i + k1)) (Nat.zero_le _) (by rw [runLength_isAnyChar_drop hu]; omega)
  have hidx : i + k1 + (n - (i + k1)) = n := by omega
  rw [hidx, h2] at this
  simp at this

theorem isAnyChar_toupper {c : Nat} (h : isAnyChar c = true) : isAnyChar (toupper c) = true := by
  simp only [isAnyChar, Char.reduceToNat, Bool.and_eq_true, bne_iff_ne, ne_eq] at h ⊢
  simp only [toupper, isLower_iff, Char.reduceToNat]
  split_ifs <;> omega

theorem take_drop_of_append (a t r : Str) :
    ((a ++ t ++ r).drop a.length).take t.length = t := by
  rw [List.append_assoc, List.drop_left', List.take_left']
  · rfl
  · rfl

/-- Claim C11, amended. On a header line without a line break (`\n`, `\r`) the
pattern yields the pair (t1, t2) exactly when, in the upper-cased line, t1 and
t2 are whole words of 4 to 15 letters, t1 before t2, such that no whole word
of 4 to 15 letters starts before t1 or after t2: the pair is the leftmost
such word together with the last one.  So `ARSENAL CHELSEA LIVERPOOL` gives
(Arsenal, Liverpool). -/
theorem twoTeams_first_and_last (line t1 t2 : Str)
    (hline : ∀ c ∈ line, isAnyChar c = true) :
    (regexSearch twoTeamsPatternAt none (line.map toupper) = some (t1, t2) ↔
      ∃ a m b : Str, line.map toupper = a ++ t1 ++ m ++ t2 ++ b ∧
        IsWholeWord a t1 (m ++ t2 ++ b) ∧ IsWholeWord (a ++ t1 ++ m) t2 b ∧
        ∀ a2 t b2 : Str, line.map toupper = a2 ++ t ++ b2 → IsWholeWord a2 t b2 →
          a.length ≤ a2.length ∧ a2.length ≤ (a ++ t1 ++ m).length) ∧
    regexSearch twoTeamsPatternAt none (str "ARSENAL CHELSEA LIVERPOOL") =
      some (str "ARSENAL", str "LIVERPOOL") ∧
    extractTeamNames [str "ARSENAL CHELSEA LIVERPOOL"] = (str "Arsenal", str "Liverpool") := by
  refine ⟨?_, by decide, by decide⟩
  have hu : ∀ c ∈ line.map toupper, isAnyChar c = true := by
    intro c hc
    obtain ⟨d, hd, rfl⟩ := List.mem_map.1 hc
    exact isAnyChar_toupper (hline d hd)
  generalize line.map toupper = u at hu ⊢
  constructor
  · intro h
    obtain ⟨i, k1, j, k2, hk1, hk2, ht1, ht2, huniv⟩ := regexSearch_twoTeams_pos hu h
    obtain ⟨-, hl1, hi, hw1⟩ := tokenAt_some hk1
    obtain ⟨hdec2, -, hq, hw2⟩ := tokenAt_some hk2
    rw [← ht1] at hl1 hw1
    rw [← ht2] at hdec2 hw2
    have hpre : u.take (i + k1 + j) = u.take i ++ t1 ++ (u.drop (i + k1)).take j := by
      rw [List.take_add, List.take_add, ht1]
    have hmid : u.drop (i + k1) =
        (u.drop (i + k1)).take j ++ t2 ++ u.drop (i + k1 + j + k2) := by
      have hA : u.drop (i + k1 + j + k2) = (u.drop (i + k1 + j)).drop k2 := by
        rw [List.drop_drop]
      have hB : u.drop (i + k1 + j) = (u.drop (i + k1)).drop j := by
        rw [List.drop_drop]
      rw [ht2, List.append_assoc, hA, List.take_append_drop, hB, List.take_append_drop]
    refine ⟨u.take i, (u.drop (i + k1)).take j, u.drop (i + k1 + j + k2), ?_, ?_, ?_, ?_⟩
    · rw [← hpre]
      exact hdec2
    · rw [← hmid]
      exact hw1
    · rw [← hpre]
      exact hw2
    · intro a2 t b2 hdec hw
      have := huniv _ _ (tokenAt_of_isWholeWord hdec hw)
      rw [← hpre, hi, hq]
      exact this
  · rintro ⟨a, m, b, hdec, hw1, hw2, huniv⟩
    have hdec1 : u = a ++ t1 ++ (m ++ t2 ++ b) := by
      rw [hdec]
      simp only [List.append_assoc]
    have hdec2 : u = (a ++ t1 ++ m) ++ t2 ++ b := hdec
    have hA := tokenAt_of_isWholeWord hdec1 hw1
    have hB := tokenAt_of_isWholeWord hdec2 hw2
    have h4 := hw1.1.1
    cases hs : regexSearch twoTeamsPatternAt none u with
    | none =>
      exact absurd (regexSearch_twoTeams_none hu hs hA hB
        (by simp only [List.length_append]; omega)) id
    | some r =>
      obtain ⟨s1, s2⟩ := r
      obtain ⟨i, k1, j, k2, hk1, hk2, hs1, hs2, huniv2⟩ := regexSearch_twoTeams_pos hu hs
      obtain ⟨hd1, -, hi, hv1⟩ := tokenAt_some hk1
      obtain ⟨hd2, -, hq, hv2⟩ := tokenAt_some hk2
      have e1 := (huniv2 _ _ hA).1
      have e2 := (huniv2 _ _ hB).2
      have e3 := (huniv _ _ _ hd1 hv1).1
      have e4 := (huniv _ _ _ hd2 hv2).2
      rw [hi] at e3
      rw [hq] at e4
      have hia : i = a.length := by omega
      have hqa : i + k1 + j = (a ++ t1 ++ m).length := by omega
      rw [hia] at hk1 hs1
      rw [hqa] at hk2 hs2
      rw [hA] at hk1
      rw [hB] at hk2
      simp only [Option.some.injEq] at hk1 hk2
      rw [← hk1] at hs1
      rw [← hk2] at hs2
      have f1 : s1 = t1 := by
        rw [hs1]
        conv_lhs => rw [hdec1]
        exact take_drop_of_append a t1 _
      have f2 : s2 = t2 := by
        rw [hs2]
        conv_lhs => rw [hdec2]
        exact take_drop_of_append (a ++ t1 ++ m) t2 b
      rw [f1, f2]

/-- The line `Arsenal 2 - 1 Chelsea (Liverpool)`: the pair is ARSENAL with
LIVERPOOL, the first whole word with the last. -/
theorem twoTeams_first_and_last_witness :
    (∀ c ∈ str "Arsenal 2 - 1 Chelsea (Liverpool)", isAnyChar c = true) ∧
    ∃ a m b : Str,
      (str "Arsenal 2 - 1 Chelsea (Liverpool)").map toupper =
        a ++ str "ARSENAL" ++ m ++ str "LIVERPOOL" ++ b ∧
      IsWholeWord a (str "ARSENAL") (m ++ str "LIVERPOOL" ++ b) ∧
      IsWholeWord (a ++ str "ARSENAL" ++ m) (str "LIVERPOOL") b ∧
      ∀ a2 t b2 : Str, (str "Arsenal 2 - 1 Chelsea (Liverpool)").map toupper = a2 ++ t ++ b2 →
        IsWholeWord a2 t b2 →
        a.length ≤ a2.length ∧ a2.length ≤ (a ++ str "ARSENAL" ++ m).length :=
  ⟨by decide,
    (twoTeams_first_and_last (str "Arsenal 2 - 1 Chelsea (Liverpool)") (str "ARSENAL")
      (str "LIVERPOOL") (by decide)).1.1 (by decide)⟩

/-- Claim C11, as stated, fails: of the three tokens of the line
`ARSENAL CHELSEA LIVERPOOL` the pattern pairs the first with the last, not
with the next; and in a line with a carriage return the leftmost token is
passed over when no other token follows it before the carriage return. -/
theorem twoTeams_three_tokens :
    regexSearch twoTeamsPatternAt none ((str "ARSENAL CHELSEA LIVERPOOL").map toupper) =
      some (str "ARSENAL", str "LIVERPOOL") ∧
    extractTeamNames [str "ARSENAL CHELSEA LIVERPOOL"] = (str "Arsenal", str "Liverpool") ∧
    extractTeamNames [str "ARSENAL CHELSEA LIVERPOOL"] ≠ (str "Arsenal", str "Chelsea") ∧
    extractTeamNames [str "ARSENAL\rCHELSEA LIVERPOOL"] = (str "Chelsea", str "Liverpool") := by
  decide

end OCRReader
